import Mathlib

/-!
Shallow embedding of the subword-nmt repository (apply_bpe.py, detokenize.py,
bpe_srv.py).  Python strings are modelled as lists of characters; Python dicts
as association lists in which the binding written last wins; fallible code
returns Option.  Recursions that Python bounds only by its recursion limit are
given explicit fuel; at every internal call site the fuel strictly exceeds the
input size, so the fuel-exhaustion branch is unreachable there.
-/

namespace SubwordNMT

abbrev Str := List Char

/-- Character-list form of a Lean string literal, used to write concrete inputs. -/
def chars (s : String) : Str := s.toList

/-- End-of-word marker, the literal string written throughout apply_bpe.py. -/
def eow : Str := ['<', '/', 'w', '>']

/-- Whitespace characters recognized by Python str.strip and str.split: the
characters on which str.isspace is true, namely U+0009 to U+000D, U+001C to
U+001F, space, U+0085, U+00A0, U+1680, U+2000 to U+200A, U+2028, U+2029,
U+202F, U+205F and U+3000. -/
def pyIsSpace (c : Char) : Bool :=
  (9 ≤ c.toNat && c.toNat ≤ 13) || (28 ≤ c.toNat && c.toNat ≤ 32) ||
    c.toNat = 133 || c.toNat = 160 || c.toNat = 5760 ||
    (8192 ≤ c.toNat && c.toNat ≤ 8202) || c.toNat = 8232 || c.toNat = 8233 ||
    c.toNat = 8239 || c.toNat = 8287 || c.toNat = 12288

/-- Python str.strip with no arguments: drop leading and trailing whitespace. -/
def pyStrip (s : Str) : Str :=
  ((s.dropWhile pyIsSpace).reverse.dropWhile pyIsSpace).reverse

/-- Python substring membership test (the in operator on strings). -/
def containsSub (s p : Str) : Bool :=
  (List.range (s.length + 1)).any (fun i => p.isPrefixOf (s.drop i))

/-- Python str.split(sep) for a nonempty separator, with explicit fuel.  Every
call site passes fuel exceeding the input length, so the fuel-exhaustion branch
is unreachable.  Python raises ValueError on an empty separator; the emptiness
guard here makes that case a non-split, and no theorem relies on it. -/
def splitOnSubF (sep : Str) : Nat → Str → List Str
  | 0, s => [s]
  | fuel + 1, s =>
    match s with
    | [] => [[]]
    | c :: rest =>
      if sep ≠ [] ∧ sep.isPrefixOf (c :: rest) then
        [] :: splitOnSubF sep fuel ((c :: rest).drop sep.length)
      else
        match splitOnSubF sep fuel rest with
        | [] => [[c]]
        | piece :: more => (c :: piece) :: more

/-- Python str.split(sep): leftmost non-overlapping occurrences. -/
def splitOnSub (sep s : Str) : List Str := splitOnSubF sep (s.length + 1) s

/-- Python str.replace(pat, repl): replace every non-overlapping occurrence,
scanning left to right, with explicit fuel (unreachable at call sites). -/
def strReplaceF (pat repl : Str) : Nat → Str → Str
  | 0, s => s
  | _ + 1, [] => []
  | fuel + 1, c :: rest =>
    if pat ≠ [] ∧ pat.isPrefixOf (c :: rest) then
      repl ++ strReplaceF pat repl fuel ((c :: rest).drop pat.length)
    else
      c :: strReplaceF pat repl fuel rest

/-- Python str.replace(pat, repl). -/
def strReplace (pat repl s : Str) : Str := strReplaceF pat repl (s.length + 1) s

/-- apply_bpe.isolate_glossary: split word on the glossary, strip each piece,
keep the glossary itself between pieces, drop pieces that are empty before
stripping. -/
def isolate_glossary (word glossary : Str) : List Str :=
  if word = glossary ∨ containsSub word glossary = false then [word]
  else
    let splits := splitOnSub glossary word
    let segments :=
      (((splits.dropLast).flatMap (fun split => [split, glossary])).filter
        (fun seg => decide (seg ≠ []))).map pyStrip
    let lastPiece := (splits.getLast?).getD []
    if lastPiece ≠ [] then segments ++ [pyStrip lastPiece] else segments

/-- BPE._isolate_glossaries: apply isolate_glossary once per glossary in order,
threading the fragments of one glossary into the next. -/
def isolateGlossaries (glossaries : List Str) (word : Str) : List Str :=
  glossaries.foldl (fun segs gloss => segs.flatMap (fun seg => isolate_glossary seg gloss)) [word]

/-- apply_bpe.get_pairs: the adjacent symbol pairs of a word.  Python collects
them into a set; this list records them in order with multiplicity, which
selectBest treats identically (the set only feeds a minimum keyed by ranks that
are unique per distinct pair).  Python indexes word[0] and so raises on an
empty word; the function is only ever applied to nonempty words. -/
def get_pairs (word : List Str) : List (Str × Str) := word.zip (word.drop 1)

/-- Lookup in a Python dict built by inserting a list of key-value pairs in
order: the binding written last wins. -/
def pyDictGet {α β : Type} [DecidableEq α] (d : List (α × β)) (k : α) : Option β :=
  (d.reverse.find? (fun kv => decide (kv.1 = k))).map (fun kv => kv.2)

/-- The pair list underlying self.bpe_codes: reversed enumerate of the rule
lines, keyed by the pair (so that in the dict the first file occurrence of a
duplicated pair wins). -/
def bpe_codes_list (codes : List (Str × Str)) : List ((Str × Str) × Nat) :=
  ((codes.enum).map (fun ic => (ic.2, ic.1))).reverse

/-- Rank lookup self.bpe_codes.get(pair): absent pairs give none (Python treats
them as infinite rank). -/
def bpeRank (codes : List (Str × Str)) (p : Str × Str) : Option Nat :=
  pyDictGet (bpe_codes_list codes) p

/-- One assignment into a Python dict rendered on its item list: an existing
key keeps its position and takes the new value, a new key is appended. -/
def pyDictInsert {α β : Type} [DecidableEq α] (d : List (α × β)) (k : α) (v : β) :
    List (α × β) :=
  if d.any (fun kv => decide (kv.1 = k)) then
    d.map (fun kv => if kv.1 = k then (k, v) else kv)
  else d ++ [(k, v)]

/-- The item list of a Python dict built by inserting key-value pairs in
order: keys in first-insertion order, each carrying the value written last. -/
def pyDictItems {α β : Type} [DecidableEq α] (l : List (α × β)) : List (α × β) :=
  l.foldl (fun d kv => pyDictInsert d kv.1 kv.2) []

/-- self.bpe_codes_reverse: a merged symbol (concatenation of a pair) back to
the pair that produced it.  Python iterates self.bpe_codes.items(), so pairs
appear in the first-insertion order of the reversed-enumerate construction,
each exactly once; a later item with the same concatenation overwrites an
earlier one (the last-wins lookup in revGet). -/
def bpe_codes_reverse (codes : List (Str × Str)) : List (Str × (Str × Str)) :=
  (pyDictItems (bpe_codes_list codes)).map (fun pi => (pi.1.1 ++ pi.1.2, pi.1))

/-- Lookup in a reverse table (a Python dict access with last-wins bindings). -/
def revGet (rev : List (Str × (Str × Str))) (k : Str) : Option (Str × Str) :=
  pyDictGet rev k

/-- Accumulator pass of Python min(pairs, key = rank-or-infinity): keep the
pair with the smallest real rank seen so far. -/
def selectBestAux (codes : List (Str × Str)) :
    List (Str × Str) → Option ((Str × Str) × Nat) → Option ((Str × Str) × Nat)
  | [], best => best
  | p :: ps, best =>
    match bpeRank codes p with
    | none => selectBestAux codes ps best
    | some r =>
      match best with
      | none => selectBestAux codes ps (some (p, r))
      | some (q, rq) =>
        if r < rq then selectBestAux codes ps (some (p, r))
        else selectBestAux codes ps (some (q, rq))

/-- The merge-loop selection: Python computes min(pairs, key = rank-or-infinity)
and then breaks if the winner has no real rank.  Both observable outcomes are
captured by returning the ranked pair of least rank, or none when no present
pair is in the rule table (ranks are unique per distinct pair, so the choice is
deterministic). -/
def selectBest (codes : List (Str × Str)) (ps : List (Str × Str)) : Option (Str × Str) :=
  (selectBestAux codes ps none).map (fun pr => pr.1)

/-- The inner rewrite of the merge loop in apply_bpe.encode: scan left to
right; where the first member is immediately followed by the second, replace
both with their concatenation and advance past both; otherwise copy one symbol.
Python implements the same scan with word.index and exception control flow. -/
def mergePair (f s : Str) : List Str → List Str
  | [] => []
  | [a] => [a]
  | a :: b :: rest =>
    if a = f ∧ b = s then (f ++ s) :: mergePair f s rest
    else a :: mergePair f s (b :: rest)

/-- The while-True merge loop of apply_bpe.encode, with fuel: select the
ranked pair of least rank among adjacent pairs, stop if none, rewrite, stop if
one symbol remains.  Each rewrite removes at least one symbol, so fuel equal to
the initial symbol count (as passed by bpeLoop) can never run out before the
loop stops on its own. -/
def bpeLoopF (codes : List (Str × Str)) : Nat → List Str → List Str
  | 0, word => word
  | fuel + 1, word =>
    match selectBest codes (get_pairs word) with
    | none => word
    | some fs =>
      let w2 := mergePair fs.1 fs.2 word
      if w2.length = 1 then w2 else bpeLoopF codes fuel w2

/-- The merge loop at its natural fuel. -/
def bpeLoop (codes : List (Str × Str)) (word : List Str) : List Str :=
  bpeLoopF codes word.length word

/-- Version-dependent initial symbol sequence of apply_bpe.encode: version 0.1
appends the end-of-word marker as its own symbol, version 0.2 attaches it to
the last character.  Any other version raises NotImplementedError, and version
0.2 raises IndexError on an empty word: both give none. -/
def initWord (version : List Nat) (orig : Str) : Option (List Str) :=
  if version = [0, 1] then some (orig.map (fun c => [c]) ++ [eow])
  else if version = [0, 2] then
    match orig with
    | [] => none
    | c :: cs =>
      some (((c :: cs).dropLast).map (fun x => [x]) ++
            [(c :: cs).getLast (List.cons_ne_nil c cs) :: eow])
  else none

/-- End-of-word stripping at the end of apply_bpe.encode: drop a trailing
marker symbol, or remove the marker text from the trailing symbol (Python uses
str.replace, which removes every occurrence in that symbol). -/
def stripEOW (word : List Str) : List Str :=
  match word.getLast? with
  | none => word
  | some lastSym =>
    if lastSym = eow then word.dropLast
    else if eow.isSuffixOf lastSym then word.dropLast ++ [strReplace eow [] lastSym]
    else word

abbrev Cache := List (Str × List Str)

/-- Cache lookup: the most recent binding for the word, if any. -/
def cacheFind (cache : Cache) (k : Str) : Option (List Str) :=
  (cache.find? (fun kv => decide (kv.1 = k))).map (fun kv => kv.2)

/-- Cache write: a new binding shadowing any earlier one (observationally the
same as Python dict assignment). -/
def cacheInsert (cache : Cache) (k : Str) (v : List Str) : Cache := (k, v) :: cache

/-- apply_bpe.recursive_split: undo merges recorded in the reverse table until
every piece is in-vocabulary or has no reverse entry.  final selects the
word-final lookup variant, which keys with the end-of-word marker and cuts the
last four characters off the right half (Python right[:-4], clamped at empty).
The recursion is bounded only by Python's recursion limit; fuel exhaustion
gives none. -/
def recursive_split :
    Nat → Str → List (Str × (Str × Str)) → List Str → Str → Bool → Option (List Str)
  | 0, _, _, _, _, _ => none
  | fuel + 1, segment, rev, vocab, separator, final =>
    let entry := if final then revGet rev (segment ++ eow) else revGet rev segment
    match entry with
    | none => some [segment]
    | some (left, right0) =>
      let right := if final then right0.take (right0.length - 4) else right0
      let leftParts :=
        if (left ++ separator) ∈ vocab then some [left]
        else recursive_split fuel left rev vocab separator false
      let rightParts :=
        if (final ∧ right ∈ vocab) ∨ (¬ final ∧ (right ++ separator) ∈ vocab) then some [right]
        else recursive_split fuel right rev vocab separator final
      match leftParts, rightParts with
      | some l, some r => some (l ++ r)
      | _, _ => none

/-- The non-final-segment pass of apply_bpe.check_vocab_and_split. -/
def splitSegments (fuel : Nat) (segs : List Str) (rev : List (Str × (Str × Str)))
    (vocab : List Str) (separator : Str) : Option (List Str) :=
  match segs with
  | [] => some []
  | seg :: rest =>
    let headParts :=
      if (seg ++ separator) ∈ vocab then some [seg]
      else recursive_split fuel seg rev vocab separator false
    match headParts, splitSegments fuel rest rev vocab separator with
    | some h, some t => some (h ++ t)
    | _, _ => none

/-- apply_bpe.check_vocab_and_split: keep in-vocabulary segments, split the
rest; the last segment is tested by plain membership and split in word-final
mode.  Python indexes orig[-1] and so raises on an empty word: none. -/
def check_vocab_and_split (fuel : Nat) (orig : List Str) (rev : List (Str × (Str × Str)))
    (vocab : List Str) (separator : Str) : Option (List Str) :=
  match orig.getLast? with
  | none => none
  | some lastSeg =>
    let lastParts :=
      if lastSeg ∈ vocab then some [lastSeg]
      else recursive_split fuel lastSeg rev vocab separator true
    match splitSegments fuel orig.dropLast rev vocab separator, lastParts with
    | some xs, some ys => some (xs ++ ys)
    | _, _ => none

/-- apply_bpe.encode.  Returns the token sequence together with the updated
cache.  When the initial sequence has no adjacent pairs Python returns the
plain string orig (not a tuple) without caching; callers iterate it, seeing one
single-character token per character, which is what the map models.  Python
skips the vocabulary pass when vocab is None or an empty set (both falsy). -/
def encode (fuel : Nat) (orig : Str) (codes : List (Str × Str))
    (rev : List (Str × (Str × Str))) (vocab : Option (List Str)) (separator : Str)
    (version : List Nat) (cache : Cache) (glossaries : List Str) :
    Option (List Str × Cache) :=
  match cacheFind cache orig with
  | some w => some (w, cache)
  | none =>
    if orig ∈ glossaries then some ([orig], cacheInsert cache orig [orig])
    else
      match initWord version orig with
      | none => none
      | some word0 =>
        if get_pairs word0 = [] then some (orig.map (fun c => [c]), cache)
        else
          let word2 := stripEOW (bpeLoop codes word0)
          match vocab with
          | none => some (word2, cacheInsert cache orig word2)
          | some v =>
            if v = [] then some (word2, cacheInsert cache orig word2)
            else
              match check_vocab_and_split fuel word2 rev v separator with
              | none => none
              | some word3 => some (word3, cacheInsert cache orig word3)

/-- The fragment loop inside BPE.segment: encode each glossary fragment,
threading the cache, and concatenate the token sequences. -/
def encodeFragments (fuel : Nat) (frags : List Str) (codes : List (Str × Str))
    (rev : List (Str × (Str × Str))) (vocab : Option (List Str)) (separator : Str)
    (version : List Nat) (cache : Cache) (glossaries : List Str) :
    Option (List Str × Cache) :=
  match frags with
  | [] => some ([], cache)
  | f :: rest =>
    match encode fuel f codes rev vocab separator version cache glossaries with
    | none => none
    | some (toks, cache1) =>
      match encodeFragments fuel rest codes rev vocab separator version cache1 glossaries with
      | none => none
      | some (toks2, cache2) => some (toks ++ toks2, cache2)

/-- apply_bpe.get_case_feature: which characters of the surface slice are
uppercase.  Python raises IndexError on an empty slice; that case is
unreachable from the orchestrator and is mapped to the tag for no uppercase. -/
def get_case_feature : Str → Char
  | [] => 'N'
  | [c] => if c.isUpper then 'S' else 'N'
  | [c, d] =>
    if c.isUpper ∧ d.isUpper then 'A'
    else if c.isUpper then 'S'
    else if d.isUpper then 'E'
    else 'N'
  | c :: d :: e :: rest =>
    let uStart := c.isUpper
    let uEnd := ((d :: e :: rest).getLast (List.cons_ne_nil d (e :: rest))).isUpper
    let uMid := ((d :: e :: rest).dropLast).all Char.isUpper
    if uEnd then
      if uStart ∧ uMid then 'A' else if uStart then 'B' else 'E'
    else if uStart then 'S' else 'N'

/-- Case normalization at the top of the word loop of BPE.segment: lowercase,
then replace the private feature separator by a plain pipe. -/
def normWord (case_feature : Bool) (word : Str) : Str :=
  if case_feature then (word.map Char.toLower).map (fun c => if c = '￨' then '|' else c)
  else word

/-- Output formatting without the case feature: separator on every token but
the last.  Python indexes new_word[-1] and so raises on an empty token list;
that case is unreachable for nonempty words and yields no tokens here. -/
def formatPlain (separator : Str) (new_word : List Str) : List Str :=
  match new_word with
  | [] => []
  | t :: ts =>
    (((t :: ts).dropLast).map (fun item => item ++ separator)) ++
      [(t :: ts).getLast (List.cons_ne_nil t ts)]

/-- Output formatting with the case feature: walk the original surface word by
token lengths, tag each slice, and annotate each token; the final token takes
the whole remaining slice and no merge separator. -/
def formatCaseAux (separator : Str) (word : Str) (pos : Nat) : List Str → List Str
  | [] => []
  | [lastItem] => [lastItem ++ ['￨', get_case_feature (word.drop pos)]]
  | item :: next :: rest =>
    (item ++ separator ++ ['￨', get_case_feature ((word.drop pos).take item.length)]) ::
      formatCaseAux separator word (pos + item.length) (next :: rest)

/-- The per-word body of BPE.segment: glossary isolation on the normalized
word, encoding of the fragments, then separator-and-feature formatting. -/
def segmentWordTokens (fuel : Nat) (case_feature : Bool) (codes : List (Str × Str))
    (rev : List (Str × (Str × Str))) (vocab : Option (List Str)) (separator : Str)
    (version : List Nat) (glossaries : List Str) (cache : Cache) (word : Str) :
    Option (List Str × Cache) :=
  let norm := normWord case_feature word
  match encodeFragments fuel (isolateGlossaries glossaries norm) codes rev vocab
      separator version cache glossaries with
  | none => none
  | some (new_word, cache2) =>
    if case_feature then some (formatCaseAux separator word 0 new_word, cache2)
    else some (formatPlain separator new_word, cache2)

/-- Python str.split() with no arguments: split on whitespace runs, no empties. -/
def splitWsAux : Str → Str → List Str
  | [], cur => if cur = [] then [] else [cur.reverse]
  | c :: rest, cur =>
    if pyIsSpace c then
      if cur = [] then splitWsAux rest [] else cur.reverse :: splitWsAux rest []
    else splitWsAux rest (c :: cur)

/-- Python str.split() with no arguments. -/
def pySplitWs (s : Str) : List Str := splitWsAux s []

/-- The word loop of BPE.segment over a whitespace-tokenized sentence,
collecting every word's output tokens in order. -/
def segmentWords (fuel : Nat) (case_feature : Bool) (codes : List (Str × Str))
    (rev : List (Str × (Str × Str))) (vocab : Option (List Str)) (separator : Str)
    (version : List Nat) (glossaries : List Str) (cache : Cache) (words : List Str) :
    Option (List Str × Cache) :=
  match words with
  | [] => some ([], cache)
  | w :: rest =>
    match segmentWordTokens fuel case_feature codes rev vocab separator version
        glossaries cache w with
    | none => none
    | some (toks, cache1) =>
      match segmentWords fuel case_feature codes rev vocab separator version
          glossaries cache1 rest with
      | none => none
      | some (toks2, cache2) => some (toks ++ toks2, cache2)

/-- Python str.join with a single space. -/
def joinSpace : List Str → Str
  | [] => []
  | [t] => t
  | t :: u :: ts => t ++ ' ' :: joinSpace (u :: ts)

/-- BPE.segment: whitespace-split the sentence, segment each word, and join all
output tokens with single spaces. -/
def segment (fuel : Nat) (case_feature : Bool) (codes : List (Str × Str))
    (rev : List (Str × (Str × Str))) (vocab : Option (List Str)) (separator : Str)
    (version : List Nat) (glossaries : List Str) (cache : Cache) (sentence : Str) :
    Option (Str × Cache) :=
  match segmentWords fuel case_feature codes rev vocab separator version glossaries
      cache (pySplitWs sentence) with
  | none => none
  | some (toks, cache2) => some (joinSpace toks, cache2)

/-- Uppercase the first character (Python norm[0].upper() + norm[1:]).  Python
raises IndexError on an empty string; unreachable at our call sites. -/
def upFirst : Str → Str
  | [] => []
  | c :: rest => Char.toUpper c :: rest

/-- Uppercase the last character (Python s[:-1] + s[-1].upper()).  Python
raises IndexError on an empty string; unreachable at our call sites. -/
def upLast (s : Str) : Str :=
  match s.reverse with
  | [] => []
  | c :: rest => (Char.toUpper c :: rest).reverse

/-- detokenize.apply_case: restore the case pattern named by the feature tag.
For the E and B tags a leading or trailing OpenNMT separator is detached first
and reattached unchanged.  A tag that is none of N, A, S, E, B falls through
with no case change, exactly as in the Python chain of ifs. -/
def apply_case (norm : Str) (feat : Str) : Str :=
  if feat = ['N'] then norm
  else if feat = ['A'] then norm.map Char.toUpper
  else if feat = ['S'] then upFirst norm
  else
    let endSep : Bool := norm.getLast? = some '￭'
    let w1 := if endSep then norm.dropLast else norm
    let startSep : Bool := w1.head? = some '￭'
    let w2 := if startSep then w1.drop 1 else w1
    let w3 := if feat = ['E'] then upLast w2 else if feat = ['B'] then upFirst w2 else w2
    (if startSep then ['￭'] else []) ++ w3 ++ (if endSep then ['￭'] else [])

/-- Split a token at the first feature separator (Python word.find of the
feature character): the normalized text before it and the tag text after it. -/
def findFeatAux : Str → Str → Option (Str × Str)
  | [], _ => none
  | c :: rest, acc => if c = '￨' then some (acc.reverse, rest) else findFeatAux rest (c :: acc)

/-- The per-token step of the detokenizer main loop: a token with no feature
separator passes through; otherwise split off the tag and restore case. -/
def decode_token (tok : Str) : Str :=
  match findFeatAux tok [] with
  | none => tok
  | some (norm, feat) => apply_case norm feat

/-- The per-line output assembly of the detokenizer: join the decoded tokens
with spaces, then delete every OpenNMT separator together with the space it
faces (first separator-space, then space-separator). -/
def detokenize_line (lineTokens : List Str) : Str :=
  strReplace [' ', '￭'] [] (strReplace ['￭', ' '] [] (joinSpace (lineTokens.map decode_token)))

/-- The state a BPE engine holds after construction. -/
structure BPEEngine where
  version : List Nat
  codes : List (Str × Str)
  codesRev : List (Str × (Str × Str))
  separator : Str
deriving DecidableEq, Repr

/-- BPE.__init__ after file-text parsing: the version tuple read from an
optional header line (absent header means version 0.1), the rule lines, and
the derived tables.  The constructor performs no version validation: any
header version yields an engine. -/
def bpeInit (headerVersion : Option (List Nat)) (ruleLines : List (Str × Str))
    (separator : Str) : BPEEngine :=
  { version := headerVersion.getD [0, 1]
    codes := ruleLines
    codesRev := bpe_codes_reverse ruleLines
    separator := separator }

/-- A configured model of bpe_srv.py: a name and the engine loaded for it
(load_models passes vocabulary None and glossaries None). -/
structure SrvModel where
  name : Str
  engine : BPEEngine
deriving DecidableEq, Repr

/-- A response body of the serving endpoint: an error value or a result. -/
inductive SrvResp where
  | err : SrvResp
  | res : Str → SrvResp
deriving DecidableEq, Repr

/-- The model-search loop of bpe_srv.preprocess: the loop overwrites the
variable on every match, so the last match wins. -/
def findModelLoop (models : List SrvModel) (reqName : Str) : Option SrvModel :=
  models.foldl (fun acc m => if m.name = reqName then some m else acc) none

/-- bpe_srv.preprocess: an unmatched model name answers with an error value in
the body.  On a match the source segments with m, the loop variable left over
from the search loop, which is the last configured model, not the matched one.
A match implies the list is nonempty, so the no-last-model branch is
unreachable. -/
def preprocess (fuel : Nat) (models : List SrvModel) (reqModel reqSeg : Str) :
    Option SrvResp :=
  match findModelLoop models reqModel with
  | none => some SrvResp.err
  | some _ =>
    match models.getLast? with
    | none => some SrvResp.err
    | some m =>
      match segment fuel false m.engine.codes m.engine.codesRev none m.engine.separator
          m.engine.version [] [] reqSeg with
      | none => none
      | some (out, _) => some (SrvResp.res (pyStrip out))

/-- Modelled from the spec: the rank of a pair is the line position of its
first occurrence in the rule file, later duplicates being ignored.  This is
the specification-side description that bpeRank (built from the source's
reversed-enumerate dict) is compared against. -/
def firstRank : List (Str × Str) → (Str × Str) → Option Nat
  | [], _ => none
  | q :: rest, p => if q = p then some 0 else (firstRank rest p).map (fun i => i + 1)

/-- The two-rule table of the spec's scenario example 1. -/
def c2codes : List (Str × Str) := [(chars "l", chars "o"), (chars "lo", chars "w")]

/-- Rule table that merges the word consisting of the literal marker text into
one symbol (used to exercise the marker-stripping step). -/
def cexCodes : List (Str × Str) :=
  [(chars "<", chars "/"), (chars "</", chars "w"), (chars "</w", chars "></w>")]

/-- First configured serving model: one merge rule (a,b). -/
def srvModelA : SrvModel := ⟨chars "A", bpeInit none [(chars "a", chars "b")] (chars "@@")⟩

/-- Second configured serving model: no merge rules. -/
def srvModelB : SrvModel := ⟨chars "B", bpeInit none [] (chars "@@")⟩

/-- The case patterns of a surface slice for which the claimed case round trip
holds: no uppercase, all uppercase, uppercase only at the start, or uppercase
only at the end.  (The tag alphabet cannot represent interior uppercase, and
the B tag decodes by uppercasing only the first character.) -/
def goodCase (surf : Str) : Bool :=
  surf.all (fun c => !c.isUpper) || surf.all Char.isUpper ||
    (match surf with
     | [] => true
     | c :: rest => c.isUpper && rest.all (fun d => !d.isUpper)) ||
    (match surf.reverse with
     | [] => true
     | c :: rest => c.isUpper && rest.all (fun d => !d.isUpper))

/-- The surface slices of the original word that the case-feature formatter
walks: one slice per token, by token length, the final token taking the whole
remainder. -/
def caseSlices (word : Str) : Nat → List Str → List Str
  | _, [] => []
  | pos, [_] => [word.drop pos]
  | pos, item :: next :: rest =>
    ((word.drop pos).take item.length) :: caseSlices word (pos + item.length) (next :: rest)

/-- The decoded shape of a word's case-annotated tokens: every non-final token
is its surface slice with the OpenNMT separator appended, the final token the
bare slice. -/
def markTokens : List Str → List Str
  | [] => []
  | [s] => [s]
  | s :: t :: rest => (s ++ ['￭']) :: markTokens (t :: rest)

/-- Well-formedness of a cache: every stored token sequence concatenates back
to its key and has no empty tokens. -/
def cacheOk (cache : Cache) : Prop :=
  ∀ k v, cacheFind cache k = some v → v.flatten = k ∧ ∀ x ∈ v, x ≠ []

/-- The in-vocabulary-or-atomic condition on a non-final output piece of the
vocabulary-constrained fallback split. -/
def nonFinalOk (rev : List (Str × (Str × Str))) (vocab : List Str) (sep : Str) (t : Str) : Prop :=
  (t ++ sep) ∈ vocab ∨ revGet rev t = none

/-- The in-vocabulary-or-atomic condition on the word-final output piece:
plain membership, and atomicity keyed with the end-of-word marker. -/
def finalOk (rev : List (Str × (Str × Str))) (vocab : List Str) (t : Str) : Prop :=
  t ∈ vocab ∨ revGet rev (t ++ eow) = none

/-- A freshly written cache binding is found by the next lookup. -/
theorem cacheFind_insert (cache : Cache) (k : Str) (v : List Str) :
    cacheFind (cacheInsert cache k v) k = some v := by
  simp [cacheFind, cacheInsert, List.find?]

/-- Association of the enumerate indices: searching the enumerated, swapped
rule list front to back finds the first occurrence index, shifted by the
enumeration start. -/
theorem findEnum (p : Str × Str) :
    ∀ (codes : List (Str × Str)) (n : Nat),
      ((((codes.enumFrom n).map (fun ic => (ic.2, ic.1))).find?
          (fun kv => decide (kv.1 = p))).map (fun kv => kv.2))
        = (firstRank codes p).map (fun i => i + n)
  | [], _ => rfl
  | q :: rest, n => by
    have ih := findEnum p rest (n + 1)
    simp only [List.enumFrom, List.map]
    by_cases hq : q = p
    · rw [List.find?_cons_of_pos _ (by simp [hq])]
      simp [firstRank, hq]
    · rw [List.find?_cons_of_neg _ (by simp [hq])]
      rw [ih]
      simp only [firstRank, if_neg hq]
      cases firstRank rest p with
      | none => rfl
      | some i => simp [Nat.add_assoc, Nat.add_comm 1 n]

/-- Claim C6: building the rule table from a file in which a pair occurs on
more than one line assigns that pair the rank of its first occurrence; later
duplicates are ignored.  The source's reversed-enumerate dict lookup agrees
with the first-occurrence rank on every rule list and pair. -/
theorem dup_rank_first (codes : List (Str × Str)) (p : Str × Str) :
    bpeRank codes p = firstRank codes p := by
  have h := findEnum p codes 0
  simp only [Nat.add_zero] at h
  rw [Option.map_id'] at h
  unfold bpeRank pyDictGet bpe_codes_list
  rw [List.reverse_reverse, List.enum]
  exact h

/-- Claim C7 counterexample: constructing an engine over a rule file whose
header names version 0.3 succeeds (no load-time failure), while the first
segmentation call fails (encode raises NotImplementedError, modelled none) —
the claim instead asserts a load-time failure. -/
theorem version_load_cex :
    (bpeInit (some [0, 3]) [] (chars "@@")).version = [0, 3] ∧
      encode 5 (chars "ab") [] [] none (chars "@@") [0, 3] [] [] = none :=
  ⟨rfl, rfl⟩

/-- Claim C7 (amended): a version header other than 0.1 and 0.2 still yields an
engine at load time; the failure surfaces at segmentation time, where encode on
an uncached, non-glossary word fails with NotImplementedError (none). -/
theorem version_encode_fails (fuel : Nat) (v : List Nat) (orig : Str)
    (codes : List (Str × Str)) (rev : List (Str × (Str × Str)))
    (vocab : Option (List Str)) (sep : Str) (cache : Cache) (glossaries : List Str)
    (hv1 : v ≠ [0, 1]) (hv2 : v ≠ [0, 2])
    (hmiss : cacheFind cache orig = none) (hglos : orig ∉ glossaries) :
    (bpeInit (some v) codes sep).version = v ∧
      encode fuel orig codes rev vocab sep v cache glossaries = none := by
  refine ⟨rfl, ?_⟩
  unfold encode
  rw [hmiss]
  simp [hglos, initWord, hv1, hv2]

/-- Witness for version_encode_fails at version 0.9 on the word a. -/
theorem version_encode_fails_witness :
    (bpeInit (some [0, 9]) [] (chars "@@")).version = [0, 9] ∧
      encode 4 (chars "a") [] [] none (chars "@@") [0, 9] [] [] = none :=
  version_encode_fails 4 [0, 9] (chars "a") [] [] none (chars "@@") [] []
    (by decide) (by decide) rfl (by decide)

/-- Claim C2 counterexample: with a rule table of exactly (l,o) at rank 0 and
(lo,w) at rank 1, segmenting lower with separator @@ emits low@@ e@@ r — not
the low@@ er the claim states (no rule ever merges e with r). -/
theorem scenario_lower_cex :
    (segmentWordTokens 0 false c2codes (bpe_codes_reverse c2codes) none (chars "@@")
        [0, 1] [] [] (chars "lower")).map (fun r => r.1)
      = some [chars "low@@", chars "e@@", chars "r"] ∧
      some [chars "low@@", chars "e@@", chars "r"] ≠ some [chars "low@@", chars "er"] :=
  ⟨rfl, by decide⟩

/-- Claim C2 (amended): with exactly (l,o) at rank 0 and (lo,w) at rank 1 and
separator @@, segmenting lower produces the tokens low@@ e@@ r, each merge-loop
iteration selecting the present pair of least rank and stopping when no present
pair is ranked. -/
theorem scenario_lower :
    segmentWordTokens 0 false c2codes (bpe_codes_reverse c2codes) none (chars "@@")
        [0, 1] [] [] (chars "lower")
      = some ([chars "low@@", chars "e@@", chars "r"],
              [(chars "lower", [chars "low", chars "e", chars "r"])]) := rfl

/-- Claim C4 counterexample: encoding the uncached, non-glossary one-character
word a under version 0.2 returns without writing any cache entry (the no-pairs
early return skips the cache store), so the claim's every-call caching fails. -/
theorem cache_write_cex :
    encode 0 (chars "a") [] [] none (chars "@@") [0, 2] [] [] = some ([chars "a"], []) ∧
      cacheFind [] (chars "a") = none :=
  ⟨rfl, rfl⟩

/-- Claim C4 (amended): every completed encoder call — with or without a
vocabulary, whose constrained split runs before the store — on an uncached,
non-glossary word whose initial symbol sequence has at least one adjacent pair
stores the returned token sequence in the cache under the word passed to the
encoder before returning, and a repeat call returns that cached sequence
verbatim. -/
theorem cache_write (fuel : Nat) (orig : Str) (codes : List (Str × Str))
    (rev : List (Str × (Str × Str))) (vocab : Option (List Str)) (sep : Str)
    (version : List Nat) (cache : Cache) (glossaries : List Str) (w0 : List Str)
    (toks : List Str) (cache2 : Cache)
    (hmiss : cacheFind cache orig = none) (hglos : orig ∉ glossaries)
    (hinit : initWord version orig = some w0) (hpairs : get_pairs w0 ≠ [])
    (henc : encode fuel orig codes rev vocab sep version cache glossaries
      = some (toks, cache2)) :
    cacheFind cache2 orig = some toks ∧
      encode fuel orig codes rev vocab sep version cache2 glossaries
        = some (toks, cache2) := by
  unfold encode at henc
  rw [hmiss] at henc
  dsimp only at henc
  rw [if_neg hglos, hinit] at henc
  dsimp only at henc
  rw [if_neg hpairs] at henc
  have hkey : cache2 = cacheInsert cache orig toks := by
    cases vocab with
    | none =>
      dsimp only at henc
      injection henc with hp
      injection hp with h1 h2
      rw [← h2, h1]
    | some v =>
      dsimp only at henc
      by_cases hv : v = []
      · rw [if_pos hv] at henc
        injection henc with hp
        injection hp with h1 h2
        rw [← h2, h1]
      · rw [if_neg hv] at henc
        cases hcv : check_vocab_and_split fuel (stripEOW (bpeLoop codes w0)) rev v sep with
        | none => rw [hcv] at henc; simp at henc
        | some word3 =>
          rw [hcv] at henc
          injection henc with hp
          injection hp with h1 h2
          rw [← h2, h1]
  constructor
  · rw [hkey]
    exact cacheFind_insert cache orig toks
  · unfold encode
    rw [hkey, cacheFind_insert]

/-- Witness for cache_write: the word ab, the rule (a,b), version 0.1, with a
vocabulary containing the merged token. -/
theorem cache_write_witness :
    cacheFind [(chars "ab", [chars "ab"])] (chars "ab") = some [chars "ab"] ∧
      encode 5 (chars "ab") [(chars "a", chars "b")]
        (bpe_codes_reverse [(chars "a", chars "b")]) (some [chars "ab"]) (chars "@@")
        [0, 1] [(chars "ab", [chars "ab"])] []
        = some ([chars "ab"], [(chars "ab", [chars "ab"])]) :=
  cache_write 5 (chars "ab") [(chars "a", chars "b")]
    (bpe_codes_reverse [(chars "a", chars "b")]) (some [chars "ab"]) (chars "@@")
    [0, 1] [] [] [['a'], ['b'], eow] [chars "ab"] [(chars "ab", [chars "ab"])]
    rfl (by decide) (by decide) (by decide) rfl

/-- Claim C10 counterexample: for the one-character glossary word a under
version 0.2 with a vocabulary supplied, encode does write a cache entry (the
glossary branch caches), contradicting the claim's no-cache-write assertion. -/
theorem single_char_cex :
    encode 0 (chars "a") [] [] (some [chars "x"]) (chars "@@") [0, 2] [] [chars "a"]
      = some ([chars "a"], [(chars "a", [chars "a"])]) := rfl

/-- Claim C10 (amended): for every uncached, non-glossary one-character word
under version 0.2, encode returns the word unchanged as a single piece, without
consulting the vocabulary-constrained fallback split and without writing to the
cache, even when a vocabulary is supplied. -/
theorem single_char_v02 (fuel : Nat) (c : Char) (codes : List (Str × Str))
    (rev : List (Str × (Str × Str))) (vocab : Option (List Str)) (sep : Str)
    (cache : Cache) (glossaries : List Str)
    (hmiss : cacheFind cache [c] = none) (hglos : [c] ∉ glossaries) :
    encode fuel [c] codes rev vocab sep [0, 2] cache glossaries = some ([[c]], cache) := by
  unfold encode
  rw [hmiss]
  simp [hglos, initWord, get_pairs]

/-- Witness for single_char_v02: the word a with a vocabulary supplied. -/
theorem single_char_v02_witness :
    cacheFind [] ['a'] = none ∧
      encode 3 ['a'] [] [] (some [chars "x@@"]) (chars "@@") [0, 2] [] []
        = some ([['a']], []) :=
  ⟨rfl, single_char_v02 3 'a' [] [] (some [chars "x@@"]) (chars "@@") [] [] rfl (by decide)⟩

/-- Claim C9: at the failing input — two configured models, the first matching
the request — the endpoint segments with the last configured model's engine,
answering a@@ b where the matched model would answer ab; an unknown model name
still gets the soft error value. -/
theorem srv_last_model :
    preprocess 0 [srvModelA, srvModelB] (chars "A") (chars "ab")
        = some (SrvResp.res (chars "a@@ b")) ∧
      chars "a@@ b" ≠ chars "ab" ∧
      preprocess 0 [srvModelA] (chars "A") (chars "ab") = some (SrvResp.res (chars "ab")) ∧
      preprocess 0 [srvModelA, srvModelB] (chars "C") (chars "ab") = some SrvResp.err :=
  ⟨rfl, by decide, rfl, rfl⟩

/-- Claim C8 counterexample: isolating the glossary USA inside the word
consisting of a space followed by USA emits the empty string as a fragment
(the emptiness test runs before whitespace trimming). -/
theorem glossary_empty_cex :
    isolate_glossary (chars " USA") (chars "USA") = [[], chars "USA"] ∧
      ([] : Str) ∈ isolate_glossary (chars " USA") (chars "USA") :=
  ⟨rfl, by decide⟩

/-- Every piece emitted by recursive_split in non-final mode is in-vocabulary
with the separator attached, or has no reverse-table entry. -/
theorem rsplit_spec_false (fuel : Nat) :
    ∀ (seg : Str) (rev : List (Str × (Str × Str))) (vocab : List Str) (sep : Str)
      (out : List Str),
      recursive_split fuel seg rev vocab sep false = some out →
      out ≠ [] ∧ ∀ t ∈ out, nonFinalOk rev vocab sep t := by
  induction fuel with
  | zero => intro seg rev vocab sep out h; simp [recursive_split] at h
  | succ n ih =>
    intro seg rev vocab sep out h
    unfold recursive_split at h
    simp only [Bool.false_eq_true, if_false, false_and, not_false_eq_true, true_and, false_or,
      reduceIte] at h
    cases hrev : revGet rev seg with
    | none =>
      rw [hrev] at h
      have hout : out = [seg] := by simpa using h.symm
      subst hout
      refine ⟨by simp, ?_⟩
      intro t ht
      rw [List.mem_singleton] at ht
      subst ht
      exact Or.inr hrev
    | some pr =>
      obtain ⟨l, r0⟩ := pr
      rw [hrev] at h
      dsimp only at h
      cases hL : (if (l ++ sep) ∈ vocab then some [l]
          else recursive_split n l rev vocab sep false) with
      | none =>
        rw [hL] at h
        cases hR : (if (r0 ++ sep) ∈ vocab then some [r0]
            else recursive_split n r0 rev vocab sep false) with
        | none => rw [hR] at h; simp at h
        | some r1 => rw [hR] at h; simp at h
      | some l1 =>
        rw [hL] at h
        cases hR : (if (r0 ++ sep) ∈ vocab then some [r0]
            else recursive_split n r0 rev vocab sep false) with
        | none => rw [hR] at h; simp at h
        | some r1 =>
          rw [hR] at h
          have hout : out = l1 ++ r1 := by simpa using h.symm
          subst hout
          have hl1 : ∀ t ∈ l1, nonFinalOk rev vocab sep t := by
            by_cases hv : (l ++ sep) ∈ vocab
            · rw [if_pos hv] at hL
              obtain rfl : l1 = [l] := by simpa using hL.symm
              intro t ht
              rw [List.mem_singleton] at ht
              subst ht
              exact Or.inl hv
            · rw [if_neg hv] at hL
              exact (ih l rev vocab sep l1 hL).2
          have hr1 : r1 ≠ [] ∧ ∀ t ∈ r1, nonFinalOk rev vocab sep t := by
            by_cases hv : (r0 ++ sep) ∈ vocab
            · rw [if_pos hv] at hR
              obtain rfl : r1 = [r0] := by simpa using hR.symm
              refine ⟨by simp, ?_⟩
              intro t ht
              rw [List.mem_singleton] at ht
              subst ht
              exact Or.inl hv
            · rw [if_neg hv] at hR
              exact ih r0 rev vocab sep r1 hR
          refine ⟨fun hc => hr1.1 (List.append_eq_nil.mp hc).2, ?_⟩
          intro t ht
          rcases List.mem_append.1 ht with h1 | h2
          · exact hl1 t h1
          · exact hr1.2 t h2

/-- Every piece emitted by recursive_split in word-final mode satisfies the
non-final condition except the last piece, which is in-vocabulary by plain
membership or has no reverse-table entry under the marker-suffixed key. -/
theorem rsplit_spec_true (fuel : Nat) :
    ∀ (seg : Str) (rev : List (Str × (Str × Str))) (vocab : List Str) (sep : Str)
      (out : List Str),
      recursive_split fuel seg rev vocab sep true = some out →
      out ≠ [] ∧ (∀ t ∈ out.dropLast, nonFinalOk rev vocab sep t) ∧
        (∀ lt, out.getLast? = some lt → finalOk rev vocab lt) := by
  induction fuel with
  | zero => intro seg rev vocab sep out h; simp [recursive_split] at h
  | succ n ih =>
    intro seg rev vocab sep out h
    unfold recursive_split at h
    simp only [Bool.true_eq_false, if_true, true_and, not_true_eq_false, false_and, or_false,
      reduceIte] at h
    cases hrev : revGet rev (seg ++ eow) with
    | none =>
      rw [hrev] at h
      have hout : out = [seg] := by simpa using h.symm
      subst hout
      refine ⟨by simp, by simp, ?_⟩
      intro lt hlt
      have hls : seg = lt := by simpa using hlt
      subst hls
      exact Or.inr hrev
    | some pr =>
      obtain ⟨l, r0⟩ := pr
      rw [hrev] at h
      dsimp only at h
      cases hL : (if (l ++ sep) ∈ vocab then some [l]
          else recursive_split n l rev vocab sep false) with
      | none =>
        rw [hL] at h
        cases hR : (if r0.take (r0.length - 4) ∈ vocab then some [r0.take (r0.length - 4)]
            else recursive_split n (r0.take (r0.length - 4)) rev vocab sep true) with
        | none => rw [hR] at h; simp at h
        | some r1 => rw [hR] at h; simp at h
      | some l1 =>
        rw [hL] at h
        cases hR : (if r0.take (r0.length - 4) ∈ vocab then some [r0.take (r0.length - 4)]
            else recursive_split n (r0.take (r0.length - 4)) rev vocab sep true) with
        | none => rw [hR] at h; simp at h
        | some r1 =>
          rw [hR] at h
          have hout : out = l1 ++ r1 := by simpa using h.symm
          subst hout
          have hl1 : ∀ t ∈ l1, nonFinalOk rev vocab sep t := by
            by_cases hv : (l ++ sep) ∈ vocab
            · rw [if_pos hv] at hL
              obtain rfl : l1 = [l] := by simpa using hL.symm
              intro t ht
              rw [List.mem_singleton] at ht
              subst ht
              exact Or.inl hv
            · rw [if_neg hv] at hL
              exact (rsplit_spec_false n l rev vocab sep l1 hL).2
          have hr1 : r1 ≠ [] ∧ (∀ t ∈ r1.dropLast, nonFinalOk rev vocab sep t) ∧
              (∀ lt, r1.getLast? = some lt → finalOk rev vocab lt) := by
            by_cases hv : r0.take (r0.length - 4) ∈ vocab
            · rw [if_pos hv] at hR
              obtain rfl : r1 = [r0.take (r0.length - 4)] := by simpa using hR.symm
              refine ⟨by simp, by simp, ?_⟩
              intro lt hlt
              have hls : r0.take (r0.length - 4) = lt := by simpa using hlt
              subst hls
              exact Or.inl hv
            · rw [if_neg hv] at hR
              exact ih (r0.take (r0.length - 4)) rev vocab sep r1 hR
          refine ⟨fun hc => hr1.1 (List.append_eq_nil.mp hc).2, ?_, ?_⟩
          · rw [List.dropLast_append_of_ne_nil _ hr1.1]
            intro t ht
            rcases List.mem_append.1 ht with h1 | h2
            · exact hl1 t h1
            · exact hr1.2.1 t h2
          · rw [List.getLast?_append_of_ne_nil _ hr1.1]
            exact hr1.2.2

/-- The non-final-segment pass keeps only pieces satisfying the non-final
condition. -/
theorem splitSegments_spec (fuel : Nat) (rev : List (Str × (Str × Str))) (vocab : List Str)
    (sep : Str) :
    ∀ (segs : List Str) (out : List Str),
      splitSegments fuel segs rev vocab sep = some out →
      ∀ t ∈ out, nonFinalOk rev vocab sep t
  | [], out, h => by
    have hout : out = [] := by simpa [splitSegments] using h.symm
    subst hout
    intro t ht
    simp at ht
  | seg :: rest, out, h => by
    unfold splitSegments at h
    cases hL : (if (seg ++ sep) ∈ vocab then some [seg]
        else recursive_split fuel seg rev vocab sep false) with
    | none =>
      rw [hL] at h
      cases hR : splitSegments fuel rest rev vocab sep with
      | none => rw [hR] at h; simp at h
      | some t2 => rw [hR] at h; simp at h
    | some h1 =>
      rw [hL] at h
      cases hR : splitSegments fuel rest rev vocab sep with
      | none => rw [hR] at h; simp at h
      | some t2 =>
        rw [hR] at h
        have hout : out = h1 ++ t2 := by simpa using h.symm
        subst hout
        have hh1 : ∀ t ∈ h1, nonFinalOk rev vocab sep t := by
          by_cases hv : (seg ++ sep) ∈ vocab
          · rw [if_pos hv] at hL
            obtain rfl : h1 = [seg] := by simpa using hL.symm
            intro t ht
            rw [List.mem_singleton] at ht
            subst ht
            exact Or.inl hv
          · rw [if_neg hv] at hL
            exact (rsplit_spec_false fuel seg rev vocab sep h1 hL).2
        intro t ht
        rcases List.mem_append.1 ht with hm | hm
        · exact hh1 t hm
        · exact splitSegments_spec fuel rev vocab sep rest t2 hR t hm

/-- Claim C5: when a vocabulary is supplied, every emitted non-final token of
check_vocab_and_split, concatenated with the separator, is in the vocabulary or
has no reverse-table entry; the final token is tested by plain membership, its
atomicity keyed with the end-of-word marker as the word-final lookup does. -/
theorem vocab_constraint (fuel : Nat) (orig : List Str) (rev : List (Str × (Str × Str)))
    (vocab : List Str) (sep : Str) (out : List Str)
    (h : check_vocab_and_split fuel orig rev vocab sep = some out) :
    (∀ t ∈ out.dropLast, (t ++ sep) ∈ vocab ∨ revGet rev t = none) ∧
      (∀ lt, out.getLast? = some lt → lt ∈ vocab ∨ revGet rev (lt ++ eow) = none) := by
  unfold check_vocab_and_split at h
  cases hlast : orig.getLast? with
  | none => rw [hlast] at h; simp at h
  | some lastSeg =>
    rw [hlast] at h
    dsimp only at h
    cases hX : splitSegments fuel orig.dropLast rev vocab sep with
    | none =>
      rw [hX] at h
      cases hY : (if lastSeg ∈ vocab then some [lastSeg]
          else recursive_split fuel lastSeg rev vocab sep true) with
      | none => rw [hY] at h; simp at h
      | some ys => rw [hY] at h; simp at h
    | some xs =>
      rw [hX] at h
      cases hY : (if lastSeg ∈ vocab then some [lastSeg]
          else recursive_split fuel lastSeg rev vocab sep true) with
      | none => rw [hY] at h; simp at h
      | some ys =>
        rw [hY] at h
        have hout : out = xs ++ ys := by simpa using h.symm
        subst hout
        have hxs : ∀ t ∈ xs, nonFinalOk rev vocab sep t :=
          splitSegments_spec fuel rev vocab sep orig.dropLast xs hX
        have hys : ys ≠ [] ∧ (∀ t ∈ ys.dropLast, nonFinalOk rev vocab sep t) ∧
            (∀ lt, ys.getLast? = some lt → finalOk rev vocab lt) := by
          by_cases hv : lastSeg ∈ vocab
          · rw [if_pos hv] at hY
            obtain rfl : ys = [lastSeg] := by simpa using hY.symm
            refine ⟨by simp, by simp, ?_⟩
            intro lt hlt
            have hls : lastSeg = lt := by simpa using hlt
            subst hls
            exact Or.inl hv
          · rw [if_neg hv] at hY
            exact rsplit_spec_true fuel lastSeg rev vocab sep ys hY
        constructor
        · rw [List.dropLast_append_of_ne_nil _ hys.1]
          intro t ht
          rcases List.mem_append.1 ht with hm | hm
          · exact hxs t hm
          · exact hys.2.1 t hm
        · rw [List.getLast?_append_of_ne_nil _ hys.1]
          exact hys.2.2

/-- Witness for vocab_constraint: one atomic segment, empty tables. -/
theorem vocab_constraint_witness :
    check_vocab_and_split 2 [chars "a"] [] [] (chars "@@") = some [chars "a"] ∧
      ((∀ t ∈ ([chars "a"] : List Str).dropLast, (t ++ chars "@@") ∈ ([] : List Str) ∨
          revGet [] t = none) ∧
        (∀ lt, ([chars "a"] : List Str).getLast? = some lt → lt ∈ ([] : List Str) ∨
          revGet [] (lt ++ eow) = none)) :=
  ⟨rfl, vocab_constraint 2 [chars "a"] [] [] (chars "@@") [chars "a"] rfl⟩

/-- Flattening the one-character symbols of a word gives back the word. -/
theorem join_map_singleton : ∀ s : Str, (s.map (fun c => [c])).flatten = s
  | [] => rfl
  | c :: rest => by simp [join_map_singleton rest]

/-- The initial symbol sequence concatenates to the word plus the marker. -/
theorem initWord_join (version : List Nat) (orig : Str) (w0 : List Str)
    (h : initWord version orig = some w0) : w0.flatten = orig ++ eow := by
  unfold initWord at h
  by_cases h1 : version = [0, 1]
  · rw [if_pos h1] at h
    obtain rfl : orig.map (fun c => [c]) ++ [eow] = w0 := by simpa using h
    simp [join_map_singleton]
  · rw [if_neg h1] at h
    by_cases h2 : version = [0, 2]
    · rw [if_pos h2] at h
      cases orig with
      | nil => simp at h
      | cons c cs =>
        obtain rfl : ((c :: cs).dropLast).map (fun x => [x]) ++
            [(c :: cs).getLast (List.cons_ne_nil c cs) :: eow] = w0 := by simpa using h
        simp only [List.flatten_append, join_map_singleton]
        rw [show (c :: cs).getLast (List.cons_ne_nil c cs) :: eow
          = [(c :: cs).getLast (List.cons_ne_nil c cs)] ++ eow from rfl]
        simp only [List.flatten_cons, List.flatten_nil, List.append_nil, ← List.append_assoc]
        rw [List.dropLast_append_getLast (List.cons_ne_nil c cs)]
    · rw [if_neg h2] at h
      simp at h

/-- The initial symbol sequence is never empty. -/
theorem initWord_ne_nil (version : List Nat) (orig : Str) (w0 : List Str)
    (h : initWord version orig = some w0) : w0 ≠ [] := by
  unfold initWord at h
  by_cases h1 : version = [0, 1]
  · rw [if_pos h1] at h
    obtain rfl : orig.map (fun c => [c]) ++ [eow] = w0 := by simpa using h
    simp
  · rw [if_neg h1] at h
    by_cases h2 : version = [0, 2]
    · rw [if_pos h2] at h
      cases orig with
      | nil => simp at h
      | cons c cs =>
        obtain rfl : ((c :: cs).dropLast).map (fun x => [x]) ++
            [(c :: cs).getLast (List.cons_ne_nil c cs) :: eow] = w0 := by simpa using h
        simp
    · rw [if_neg h2] at h
      simp at h

/-- The last initial symbol carries the end-of-word marker as a suffix. -/
theorem initWord_last_eow (version : List Nat) (orig : Str) (w0 : List Str)
    (h : initWord version orig = some w0) : ∃ t, w0.getLast? = some (t ++ eow) := by
  unfold initWord at h
  by_cases h1 : version = [0, 1]
  · rw [if_pos h1] at h
    obtain rfl : orig.map (fun c => [c]) ++ [eow] = w0 := by simpa using h
    exact ⟨[], by simp⟩
  · rw [if_neg h1] at h
    by_cases h2 : version = [0, 2]
    · rw [if_pos h2] at h
      cases orig with
      | nil => simp at h
      | cons c cs =>
        obtain rfl : ((c :: cs).dropLast).map (fun x => [x]) ++
            [(c :: cs).getLast (List.cons_ne_nil c cs) :: eow] = w0 := by simpa using h
        exact ⟨[(c :: cs).getLast (List.cons_ne_nil c cs)], by simp⟩
    · rw [if_neg h2] at h
      simp at h

/-- One merge rewrite preserves the concatenation of the symbols. -/
theorem mergePair_join (f s : Str) : ∀ w : List Str, (mergePair f s w).flatten = w.flatten
  | [] => rfl
  | [a] => rfl
  | a :: b :: rest => by
    rw [mergePair]
    by_cases hab : a = f ∧ b = s
    · rw [if_pos hab]
      simp [mergePair_join f s rest, hab.1, hab.2]
    · rw [if_neg hab]
      simp [mergePair_join f s (b :: rest)]

/-- One merge rewrite keeps the symbol sequence nonempty. -/
theorem mergePair_ne_nil (f s : Str) : ∀ w : List Str, w ≠ [] → mergePair f s w ≠ []
  | [], h => absurd rfl h
  | [a], _ => by simp [mergePair]
  | a :: b :: rest, _ => by
    rw [mergePair]
    by_cases hab : a = f ∧ b = s
    · rw [if_pos hab]; simp
    · rw [if_neg hab]; simp

/-- The optional last element ignores a cons onto a nonempty list. -/
theorem getLast?_cons_ne {α : Type} (a : α) (l : List α) (h : l ≠ []) :
    (a :: l).getLast? = l.getLast? := by
  obtain ⟨x, xs, rfl⟩ := List.exists_cons_of_ne_nil h
  exact List.getLast?_cons_cons

/-- One merge rewrite only ever extends the last symbol on the left. -/
theorem mergePair_last_suffix (f s : Str) :
    ∀ (w : List Str) (t0 : Str), w.getLast? = some t0 →
      ∃ u, (mergePair f s w).getLast? = some (u ++ t0)
  | [], t0, h => by simp at h
  | [a], t0, h => by
    obtain rfl : a = t0 := by simpa using h
    exact ⟨[], by simp [mergePair]⟩
  | a :: b :: rest, t0, h => by
    rw [mergePair]
    by_cases hab : a = f ∧ b = s
    · rw [if_pos hab]
      cases rest with
      | nil =>
        obtain rfl : b = t0 := by simpa using h
        exact ⟨f, by simp [mergePair, hab.2]⟩
      | cons r rs =>
        have hlast : (r :: rs).getLast? = some t0 := by
          rw [List.getLast?_cons_cons] at h
          rw [List.getLast?_cons_cons] at h
          exact h
        obtain ⟨u, hu⟩ := mergePair_last_suffix f s (r :: rs) t0 hlast
        refine ⟨u, ?_⟩
        have hne : mergePair f s (r :: rs) ≠ [] := mergePair_ne_nil f s _ (by simp)
        rw [getLast?_cons_ne _ _ hne]
        exact hu
    · rw [if_neg hab]
      have hlast : (b :: rest).getLast? = some t0 := by
        rw [List.getLast?_cons_cons] at h
        exact h
      obtain ⟨u, hu⟩ := mergePair_last_suffix f s (b :: rest) t0 hlast
      refine ⟨u, ?_⟩
      have hne : mergePair f s (b :: rest) ≠ [] := mergePair_ne_nil f s _ (by simp)
      rw [getLast?_cons_ne _ _ hne]
      exact hu

/-- The merge loop preserves the concatenation of the symbols. -/
theorem bpeLoopF_join (codes : List (Str × Str)) :
    ∀ (fuel : Nat) (w : List Str), (bpeLoopF codes fuel w).flatten = w.flatten
  | 0, w => rfl
  | fuel + 1, w => by
    rw [bpeLoopF]
    cases selectBest codes (get_pairs w) with
    | none => rfl
    | some fs =>
      dsimp only
      by_cases hl : (mergePair fs.1 fs.2 w).length = 1
      · rw [if_pos hl]
        exact mergePair_join fs.1 fs.2 w
      · rw [if_neg hl]
        rw [bpeLoopF_join codes fuel (mergePair fs.1 fs.2 w)]
        exact mergePair_join fs.1 fs.2 w

/-- The merge loop keeps the symbol sequence nonempty. -/
theorem bpeLoopF_ne_nil (codes : List (Str × Str)) :
    ∀ (fuel : Nat) (w : List Str), w ≠ [] → bpeLoopF codes fuel w ≠ []
  | 0, w, hw => hw
  | fuel + 1, w, hw => by
    rw [bpeLoopF]
    cases selectBest codes (get_pairs w) with
    | none => exact hw
    | some fs =>
      dsimp only
      by_cases hl : (mergePair fs.1 fs.2 w).length = 1
      · rw [if_pos hl]
        exact mergePair_ne_nil fs.1 fs.2 w hw
      · rw [if_neg hl]
        exact bpeLoopF_ne_nil codes fuel _ (mergePair_ne_nil fs.1 fs.2 w hw)

/-- The merge loop keeps the marker a suffix of the last symbol. -/
theorem bpeLoopF_last_suffix (codes : List (Str × Str)) :
    ∀ (fuel : Nat) (w : List Str) (t : Str), w.getLast? = some (t ++ eow) →
      ∃ t2, (bpeLoopF codes fuel w).getLast? = some (t2 ++ eow)
  | 0, w, t, hw => ⟨t, hw⟩
  | fuel + 1, w, t, hw => by
    rw [bpeLoopF]
    cases selectBest codes (get_pairs w) with
    | none => exact ⟨t, hw⟩
    | some fs =>
      dsimp only
      obtain ⟨u, hu⟩ := mergePair_last_suffix fs.1 fs.2 w (t ++ eow) hw
      by_cases hl : (mergePair fs.1 fs.2 w).length = 1
      · rw [if_pos hl]
        exact ⟨u ++ t, by rw [hu, List.append_assoc]⟩
      · rw [if_neg hl]
        exact bpeLoopF_last_suffix codes fuel _ (u ++ t)
          (by rw [hu, List.append_assoc])

/-- Replacement in the empty string is empty at any fuel. -/
theorem strReplaceF_nil (pat repl : Str) : ∀ fuel : Nat, strReplaceF pat repl fuel [] = []
  | 0 => rfl
  | _ + 1 => rfl

/-- Substring containment unfolded to a positional prefix condition. -/
theorem containsSub_iff (s p : Str) :
    containsSub s p = true ↔ ∃ i, i ≤ s.length ∧ p.isPrefixOf (s.drop i) = true := by
  unfold containsSub
  rw [List.any_eq_true]
  constructor
  · rintro ⟨i, hi, hp⟩
    exact ⟨i, by simpa using Nat.lt_succ_iff.mp (List.mem_range.mp hi), hp⟩
  · rintro ⟨i, hi, hp⟩
    exact ⟨i, List.mem_range.mpr (Nat.lt_succ_of_le hi), hp⟩

/-- A string with no occurrence of a pattern has no prefix occurrence at any position. -/
theorem containsSub_false_elim (s p : Str) (h : containsSub s p = false)
    (i : Nat) (hi : i ≤ s.length) : p.isPrefixOf (s.drop i) = false := by
  by_contra hc
  have hp : p.isPrefixOf (s.drop i) = true := by
    cases hq : p.isPrefixOf (s.drop i) with
    | true => rfl
    | false => exact absurd hq hc
  have : containsSub s p = true := (containsSub_iff s p).mpr ⟨i, hi, hp⟩
  rw [h] at this
  exact Bool.false_ne_true this

/-- A list is a Boolean prefix of itself followed by anything. -/
theorem isPrefixOf_append_self : ∀ p r : Str, p.isPrefixOf (p ++ r) = true
  | [], _ => by simp [List.isPrefixOf]
  | c :: p, r => by simp [List.isPrefixOf, isPrefixOf_append_self p r]

/-- A Boolean prefix is recovered by take. -/
theorem isPrefixOf_take : ∀ p s : Str, p.isPrefixOf s = true → s.take p.length = p
  | [], s, _ => rfl
  | c :: p, [], h => by simp [List.isPrefixOf] at h
  | c :: p, d :: s, h => by
    simp only [List.isPrefixOf, Bool.and_eq_true, beq_iff_eq] at h
    simp [h.1, isPrefixOf_take p s h.2]

/-- A prefix no longer than the left part of an append is a prefix of that part. -/
theorem isPrefixOf_append_left : ∀ (p a b : Str),
    p.isPrefixOf (a ++ b) = true → p.length ≤ a.length → p.isPrefixOf a = true
  | [], a, b, _, _ => by simp [List.isPrefixOf]
  | c :: p, [], b, h, hl => by simp at hl
  | c :: p, d :: a, b, h, hl => by
    simp only [List.cons_append, List.isPrefixOf, Bool.and_eq_true, beq_iff_eq] at h ⊢
    exact ⟨h.1, isPrefixOf_append_left p a b h.2 (by simpa using hl)⟩

/-- When a word does not contain the marker, the only occurrence of the marker
in the word with the marker appended is the final one: no occurrence starts
inside the word, not even straddling the boundary (no proper prefix of the
marker is also one of its proper suffixes). -/
theorem no_mid_occurrence (t : Str) (h : containsSub t eow = false) :
    ∀ i, i < t.length → eow.isPrefixOf ((t ++ eow).drop i) = false := by
  intro i hi
  by_contra hc
  have hpre : eow.isPrefixOf ((t ++ eow).drop i) = true := by
    cases hq : eow.isPrefixOf ((t ++ eow).drop i) with
    | true => rfl
    | false => exact absurd hq hc
  rw [List.drop_append_of_le_length (Nat.le_of_lt hi)] at hpre
  have hulen : (t.drop i).length = t.length - i := List.length_drop i t
  by_cases hlong : 4 ≤ (t.drop i).length
  · have hpu : eow.isPrefixOf (t.drop i) = true :=
      isPrefixOf_append_left eow (t.drop i) eow hpre (by simpa [eow] using hlong)
    have : containsSub t eow = true :=
      (containsSub_iff t eow).mpr ⟨i, Nat.le_of_lt hi, hpu⟩
    rw [h] at this
    exact Bool.false_ne_true this
  · have hshort : (t.drop i).length < 4 := Nat.lt_of_not_le hlong
    have hpos : 1 ≤ (t.drop i).length := by omega
    have htake : (t.drop i ++ eow).take 4 = eow := by
      have := isPrefixOf_take eow (t.drop i ++ eow) hpre
      simpa [eow] using this
    have hu : t.drop i = eow.take (t.drop i).length := by
      have h1 : (t.drop i ++ eow).take (t.drop i).length = t.drop i :=
        List.take_left _ _
      have h2 : ((t.drop i ++ eow).take 4).take (t.drop i).length
          = (t.drop i ++ eow).take (t.drop i).length := by
        rw [List.take_take]
        congr 1
        omega
      rw [htake] at h2
      exact (h2.trans h1).symm
    have h123 : (t.drop i).length = 1 ∨ (t.drop i).length = 2 ∨ (t.drop i).length = 3 := by
      omega
    rcases h123 with h1 | h2 | h3
    · rw [hu, h1] at hpre
      exact absurd hpre (by decide)
    · rw [hu, h2] at hpre
      exact absurd hpre (by decide)
    · rw [hu, h3] at hpre
      exact absurd hpre (by decide)

/-- Replacement of the marker by nothing removes exactly the final marker when
no occurrence starts earlier. -/
theorem noOcc_replaceF : ∀ (t : Str) (fuel : Nat), t.length + 5 ≤ fuel →
    (∀ i, i < t.length → eow.isPrefixOf ((t ++ eow).drop i) = false) →
    strReplaceF eow [] fuel (t ++ eow) = t
  | [], fuel, hf, _ => by
    cases fuel with
    | zero => omega
    | succ f =>
      rw [List.nil_append]
      rw [show eow = '<' :: ['/', 'w', '>'] from rfl]
      rw [strReplaceF]
      rw [if_pos (by constructor <;> decide)]
      simp [strReplaceF_nil]
  | c :: t, fuel, hf, hno => by
    cases fuel with
    | zero => omega
    | succ f =>
      have hhead : ¬(eow ≠ [] ∧ eow.isPrefixOf (c :: (t ++ eow))) := by
        rintro ⟨-, hp⟩
        have h0 := hno 0 (by simp)
        rw [List.drop_zero, List.cons_append] at h0
        rw [h0] at hp
        exact Bool.false_ne_true hp
      rw [List.cons_append, strReplaceF, if_neg hhead]
      congr 1
      exact noOcc_replaceF t f (by simp at hf; omega)
        (fun i hi => by
          have := hno (i + 1) (by simpa using Nat.succ_lt_succ hi)
          rwa [List.cons_append, List.drop_succ_cons] at this)

/-- Python replace of the marker on a marker-free word with the marker appended
gives back the word. -/
theorem strReplace_drop_eow (t : Str) (h : containsSub t eow = false) :
    strReplace eow [] (t ++ eow) = t := by
  unfold strReplace
  have hlen : (t ++ eow).length + 1 = t.length + 5 := by simp [eow]
  rw [hlen]
  exact noOcc_replaceF t (t.length + 5) (le_refl _) (no_mid_occurrence t h)

/-- No occurrence in an append implies no occurrence in the right part. -/
theorem containsSub_append_left_false (a t p : Str) (h : containsSub (a ++ t) p = false) :
    containsSub t p = false := by
  cases hq : containsSub t p with
  | false => rfl
  | true =>
    exfalso
    obtain ⟨i, hi, hp⟩ := (containsSub_iff t p).mp hq
    have : containsSub (a ++ t) p = true := by
      refine (containsSub_iff (a ++ t) p).mpr ⟨a.length + i, by simp; omega, ?_⟩
      rw [List.drop_append]
      exact hp
    rw [h] at this
    exact Bool.false_ne_true this

/-- A list is a Boolean suffix of anything followed by itself. -/
theorem isSuffixOf_append_self (p r : Str) : p.isSuffixOf (r ++ p) = true := by
  unfold List.isSuffixOf
  rw [List.reverse_append]
  exact isPrefixOf_append_self p.reverse r.reverse

/-- Stripping the end-of-word marker from a symbol sequence that concatenates
to the word plus the marker, whose last symbol ends in the marker, gives a
sequence concatenating to the word with all symbols nonempty — provided the
word itself does not contain the marker text. -/
theorem stripEOW_spec (w : List Str) (orig : Str) (t : Str)
    (hjoin : w.flatten = orig ++ eow)
    (hlast : w.getLast? = some (t ++ eow))
    (hsub : containsSub orig eow = false)
    (hsyms : ∀ x ∈ w, x ≠ []) :
    (stripEOW w).flatten = orig ∧ ∀ x ∈ stripEOW w, x ≠ [] := by
  have hw : w.dropLast ++ [t ++ eow] = w :=
    List.dropLast_append_getLast? _ (Option.mem_def.mpr hlast)
  have happ : w.dropLast.flatten ++ t = orig := by
    have h1 : w.flatten = w.dropLast.flatten ++ (t ++ eow) := by
      conv_lhs => rw [← hw]
      simp
    rw [hjoin] at h1
    have h2 : (w.dropLast.flatten ++ t) ++ eow = orig ++ eow := by
      rw [List.append_assoc]
      exact h1.symm
    exact List.append_cancel_right h2
  have hsubt : containsSub t eow = false := by
    rw [← happ] at hsub
    exact containsSub_append_left_false _ _ _ hsub
  unfold stripEOW
  rw [hlast]
  dsimp only
  by_cases h1 : t ++ eow = eow
  · rw [if_pos h1]
    have ht : t = [] := by
      have hl := congrArg List.length h1
      simp at hl
      exact hl
    constructor
    · rw [ht] at happ
      simpa using happ
    · intro x hx
      exact hsyms x (List.dropLast_subset w hx)
  · rw [if_neg h1, if_pos (isSuffixOf_append_self eow t)]
    rw [strReplace_drop_eow t hsubt]
    constructor
    · simpa using happ
    · intro x hx
      rcases List.mem_append.1 hx with hx1 | hx2
      · exact hsyms x (List.dropLast_subset w hx1)
      · have hxt : x = t := by simpa using hx2
        subst hxt
        intro hte
        exact h1 (by rw [hte]; rfl)

/-- Every initial symbol is nonempty. -/
theorem initWord_syms_ne (version : List Nat) (orig : Str) (w0 : List Str)
    (h : initWord version orig = some w0) : ∀ x ∈ w0, x ≠ [] := by
  unfold initWord at h
  by_cases h1 : version = [0, 1]
  · rw [if_pos h1] at h
    obtain rfl : orig.map (fun c => [c]) ++ [eow] = w0 := by simpa using h
    intro x hx
    rcases List.mem_append.1 hx with hx1 | hx2
    · obtain ⟨c, _, rfl⟩ := List.mem_map.1 hx1
      simp
    · have : x = eow := by simpa using hx2
      subst this
      simp [eow]
  · rw [if_neg h1] at h
    by_cases h2 : version = [0, 2]
    · rw [if_pos h2] at h
      cases orig with
      | nil => simp at h
      | cons c cs =>
        obtain rfl : ((c :: cs).dropLast).map (fun x => [x]) ++
            [(c :: cs).getLast (List.cons_ne_nil c cs) :: eow] = w0 := by simpa using h
        intro x hx
        rcases List.mem_append.1 hx with hx1 | hx2
        · obtain ⟨d, _, rfl⟩ := List.mem_map.1 hx1
          simp
        · have : x = (c :: cs).getLast (List.cons_ne_nil c cs) :: eow := by simpa using hx2
          subst this
          simp
    · rw [if_neg h2] at h
      simp at h

/-- One merge rewrite keeps every symbol nonempty. -/
theorem mergePair_syms_ne (f s : Str) : ∀ w : List Str, (∀ x ∈ w, x ≠ []) →
    ∀ x ∈ mergePair f s w, x ≠ []
  | [], _, x, hx => by simp [mergePair] at hx
  | [a], h, x, hx => by
    rw [mergePair] at hx
    have hxa : x = a := by simpa using hx
    rw [hxa]
    exact h a (by simp)
  | a :: b :: rest, h, x, hx => by
    rw [mergePair] at hx
    by_cases hab : a = f ∧ b = s
    · rw [if_pos hab] at hx
      rcases List.mem_cons.1 hx with h1 | h2
      · rw [h1, ← hab.1]
        intro hc
        exact h a (by simp) (List.append_eq_nil.mp hc).1
      · exact mergePair_syms_ne f s rest (fun y hy => h y (by simp [hy])) x h2
    · rw [if_neg hab] at hx
      rcases List.mem_cons.1 hx with h1 | h2
      · rw [h1]
        exact h a (by simp)
      · exact mergePair_syms_ne f s (b :: rest)
          (fun y hy => h y (List.mem_cons_of_mem a hy)) x h2

/-- The merge loop keeps every symbol nonempty. -/
theorem bpeLoopF_syms_ne (codes : List (Str × Str)) :
    ∀ (fuel : Nat) (w : List Str), (∀ x ∈ w, x ≠ []) →
      ∀ x ∈ bpeLoopF codes fuel w, x ≠ []
  | 0, w, h => h
  | fuel + 1, w, h => by
    rw [bpeLoopF]
    cases selectBest codes (get_pairs w) with
    | none => exact h
    | some fs =>
      dsimp only
      by_cases hl : (mergePair fs.1 fs.2 w).length = 1
      · rw [if_pos hl]
        exact mergePair_syms_ne fs.1 fs.2 w h
      · rw [if_neg hl]
        exact bpeLoopF_syms_ne codes fuel _ (mergePair_syms_ne fs.1 fs.2 w h)

/-- Under both rule-file versions, encoding a nonempty, marker-free, uncached
word with no vocabulary succeeds, and the output tokens concatenate to the word
and are all nonempty (a well-formed cache may also answer). -/
theorem encode_spec (fuel : Nat) (orig : Str) (codes : List (Str × Str))
    (rev : List (Str × (Str × Str))) (sep : Str) (version : List Nat)
    (cache : Cache) (glossaries : List Str)
    (hver : version = [0, 1] ∨ version = [0, 2]) (hne : orig ≠ [])
    (hsub : containsSub orig eow = false) (hcache : cacheOk cache) :
    ∃ toks cache2,
      encode fuel orig codes rev none sep version cache glossaries = some (toks, cache2) ∧
        toks.flatten = orig ∧ ∀ x ∈ toks, x ≠ [] := by
  unfold encode
  cases hc : cacheFind cache orig with
  | some w =>
    exact ⟨w, cache, rfl, (hcache orig w hc).1, (hcache orig w hc).2⟩
  | none =>
    dsimp only
    by_cases hg : orig ∈ glossaries
    · rw [if_pos hg]
      exact ⟨[orig], _, rfl, by simp, by simpa using hne⟩
    · rw [if_neg hg]
      have hinit : ∃ w0, initWord version orig = some w0 := by
        rcases hver with hv | hv <;> subst hv
        · exact ⟨_, by unfold initWord; rw [if_pos rfl]⟩
        · cases orig with
          | nil => exact absurd rfl hne
          | cons c cs =>
            exact ⟨_, by unfold initWord; rw [if_neg (by decide), if_pos rfl]⟩
      obtain ⟨w0, hw0⟩ := hinit
      rw [hw0]
      dsimp only
      by_cases hp : get_pairs w0 = []
      · rw [if_pos hp]
        refine ⟨_, _, rfl, join_map_singleton orig, ?_⟩
        intro x hx
        obtain ⟨c, _, rfl⟩ := List.mem_map.1 hx
        simp
      · rw [if_neg hp]
        have hjoin : (bpeLoop codes w0).flatten = orig ++ eow := by
          unfold bpeLoop
          rw [bpeLoopF_join]
          exact initWord_join version orig w0 hw0
        obtain ⟨t, ht⟩ : ∃ t, (bpeLoop codes w0).getLast? = some (t ++ eow) := by
          obtain ⟨t, ht⟩ := initWord_last_eow version orig w0 hw0
          exact bpeLoopF_last_suffix codes w0.length w0 t ht
        have hsyms : ∀ x ∈ bpeLoop codes w0, x ≠ [] := by
          unfold bpeLoop
          exact bpeLoopF_syms_ne codes w0.length w0 (initWord_syms_ne version orig w0 hw0)
        have hspec := stripEOW_spec (bpeLoop codes w0) orig t hjoin ht hsub hsyms
        exact ⟨_, _, rfl, hspec.1, hspec.2⟩

/-- Claim C1 counterexample: the word consisting of the literal marker text
</w>, under version 0.2 and a table merging it into one symbol, encodes to the
single empty token (str.replace removes both marker occurrences from the last
symbol), so the concatenation of the output tokens is empty, not the word. -/
theorem roundtrip_cex :
    encode 0 (chars "</w>") cexCodes (bpe_codes_reverse cexCodes) none (chars "@@")
        [0, 2] [] [] = some ([[]], [(chars "</w>", [[]])]) ∧
      ([[]] : List Str).flatten ≠ chars "</w>" :=
  ⟨rfl, by decide⟩

/-- Claim C1 (amended): for every nonempty input word that does not contain the
end-of-word marker text, every rule table and both versions 0.1 and 0.2 (no
vocabulary, any glossaries, any well-formed cache), concatenating the output
tokens of segmentation reproduces the original word exactly. -/
theorem roundtrip_encode (fuel : Nat) (orig : Str) (codes : List (Str × Str))
    (rev : List (Str × (Str × Str))) (sep : Str) (version : List Nat)
    (cache : Cache) (glossaries : List Str)
    (hver : version = [0, 1] ∨ version = [0, 2]) (hne : orig ≠ [])
    (hsub : containsSub orig eow = false) (hcache : cacheOk cache) :
    ∃ toks cache2,
      encode fuel orig codes rev none sep version cache glossaries = some (toks, cache2) ∧
        toks.flatten = orig := by
  obtain ⟨toks, cache2, henc, hj, -⟩ :=
    encode_spec fuel orig codes rev sep version cache glossaries hver hne hsub hcache
  exact ⟨toks, cache2, henc, hj⟩

/-- Witness for roundtrip_encode: the word lower under the scenario table. -/
theorem roundtrip_encode_witness :
    ∃ toks cache2,
      encode 0 (chars "lower") c2codes (bpe_codes_reverse c2codes) none (chars "@@")
          [0, 1] [] [] = some (toks, cache2) ∧ toks.flatten = chars "lower" :=
  roundtrip_encode 0 (chars "lower") c2codes (bpe_codes_reverse c2codes) (chars "@@")
    [0, 1] [] [] (Or.inl rfl) (by decide) (by decide)
    (by intro k v h; simp [cacheFind] at h)

/-- dropWhile removes nothing when no element satisfies the predicate. -/
theorem dropWhile_all_false (p : Char → Bool) (s : Str) (h : ∀ c ∈ s, p c = false) :
    s.dropWhile p = s := by
  cases s with
  | nil => rfl
  | cons c rest =>
    rw [List.dropWhile_cons, if_neg]
    simp [h c (by simp)]

/-- Stripping a whitespace-free string changes nothing. -/
theorem pyStrip_id (s : Str) (h : ∀ c ∈ s, pyIsSpace c = false) : pyStrip s = s := by
  unfold pyStrip
  rw [dropWhile_all_false pyIsSpace s h]
  rw [dropWhile_all_false pyIsSpace s.reverse (fun c hc => h c (List.mem_reverse.mp hc))]
  exact List.reverse_reverse s

/-- Every character of every split piece comes from the split string. -/
theorem splitOnSubF_chars (sep : Str) :
    ∀ (fuel : Nat) (s piece : Str), piece ∈ splitOnSubF sep fuel s → ∀ c ∈ piece, c ∈ s
  | 0, s, piece, hp => by
    have : piece = s := by simpa [splitOnSubF] using hp
    subst this
    exact fun c hc => hc
  | fuel + 1, s, piece, hp => by
    match s with
    | [] =>
      have : piece = [] := by simpa [splitOnSubF] using hp
      subst this
      intro c hc
      simp at hc
    | d :: rest =>
      rw [splitOnSubF] at hp
      by_cases hcond : sep ≠ [] ∧ sep.isPrefixOf (d :: rest)
      · rw [if_pos hcond] at hp
        rcases List.mem_cons.1 hp with h1 | h2
        · subst h1
          intro c hc
          simp at hc
        · intro c hc
          exact List.mem_of_mem_drop (splitOnSubF_chars sep fuel _ piece h2 c hc)
      · rw [if_neg hcond] at hp
        cases hr : splitOnSubF sep fuel rest with
        | nil =>
          rw [hr] at hp
          have : piece = [d] := by simpa using hp
          subst this
          intro c hc
          have : c = d := by simpa using hc
          subst this
          simp
        | cons p more =>
          rw [hr] at hp
          rcases List.mem_cons.1 hp with h1 | h2
          · subst h1
            intro c hc
            rcases List.mem_cons.1 hc with h3 | h4
            · subst h3; simp
            · have : c ∈ rest := splitOnSubF_chars sep fuel rest p (by rw [hr]; simp) c h4
              simp [this]
          · intro c hc
            have : c ∈ rest := splitOnSubF_chars sep fuel rest piece (by rw [hr]; simp [h2]) c hc
            simp [this]

/-- Claim C8 (amended): for every nonempty word and nonempty glossary that both
contain no whitespace, no element of the fragment list returned by glossary
isolation is the empty string: fragments that are empty before trimming are
dropped, and trimming cannot empty a whitespace-free fragment. -/
theorem glossary_no_empty (word glossary : Str)
    (hw : word ≠ []) (hg : glossary ≠ [])
    (hwsp : ∀ c ∈ word, pyIsSpace c = false)
    (hgsp : ∀ c ∈ glossary, pyIsSpace c = false) :
    ∀ t ∈ isolate_glossary word glossary, t ≠ [] := by
  intro t ht
  unfold isolate_glossary at ht
  by_cases hcond : word = glossary ∨ containsSub word glossary = false
  · rw [if_pos hcond] at ht
    have : t = word := by simpa using ht
    subst this
    exact hw
  · rw [if_neg hcond] at ht
    dsimp only at ht
    have hsegs : ∀ x, x ∈ (((((splitOnSub glossary word).dropLast).flatMap
        (fun split => [split, glossary])).filter
          (fun seg => decide (seg ≠ []))).map pyStrip) → x ≠ [] := by
      intro x hx
      obtain ⟨seg, hseg, rfl⟩ := List.mem_map.1 hx
      obtain ⟨hsegmem, hsegne⟩ := List.mem_filter.1 hseg
      have hsegne2 : seg ≠ [] := by simpa using hsegne
      obtain ⟨split, hsplit, hsegin⟩ := List.mem_flatMap.1 hsegmem
      have hsplitmem : split ∈ splitOnSub glossary word :=
        List.dropLast_subset _ hsplit
      rcases List.mem_cons.1 hsegin with h1 | h2
      · subst h1
        rw [pyStrip_id seg (fun c hc =>
          hwsp c (splitOnSubF_chars glossary (word.length + 1) word seg hsplitmem c hc))]
        exact hsegne2
      · have : seg = glossary := by simpa using h2
        subst this
        rw [pyStrip_id seg hgsp]
        exact hg
    by_cases hlast : ((splitOnSub glossary word).getLast?).getD [] ≠ []
    · rw [if_pos hlast] at ht
      rcases List.mem_append.1 ht with h1 | h2
      · exact hsegs t h1
      · have ht2 : t = pyStrip (((splitOnSub glossary word).getLast?).getD []) := by
          simpa using h2
        cases hgl : (splitOnSub glossary word).getLast? with
        | none =>
          rw [hgl] at ht2 hlast
          simp at hlast
        | some lp =>
          rw [hgl] at ht2 hlast
          simp only [Option.getD_some] at ht2 hlast
          have hlpmem : lp ∈ splitOnSub glossary word := by
            have := List.mem_of_mem_getLast? (l := splitOnSub glossary word) (a := lp)
            exact this (by rw [hgl]; rfl)
          rw [ht2, pyStrip_id lp (fun c hc =>
            hwsp c (splitOnSubF_chars glossary (word.length + 1) word lp hlpmem c hc))]
          exact hlast
    · rw [if_neg hlast] at ht
      exact hsegs t ht

/-- Witness for glossary_no_empty: the docstring's own example word emits no
empty fragment. -/
theorem glossary_no_empty_witness :
    ([] : Str) ∉ isolate_glossary (chars "1934USABUSA") (chars "USA") :=
  fun hmem => glossary_no_empty (chars "1934USABUSA") (chars "USA") (by decide) (by decide)
    (by decide) (by decide) [] hmem rfl

/-- Uppercase test in terms of the numeric code point. -/
theorem char_isUpper_iff (c : Char) : c.isUpper = true ↔ 65 ≤ c.toNat ∧ c.toNat ≤ 90 := by
  unfold Char.isUpper Char.toNat
  simp only [ge_iff_le, Bool.and_eq_true, decide_eq_true_eq, UInt32.le_def, BitVec.le_def]
  exact Iff.rfl

/-- Lowercase test in terms of the numeric code point. -/
theorem char_isLower_iff (c : Char) : c.isLower = true ↔ 97 ≤ c.toNat ∧ c.toNat ≤ 122 := by
  unfold Char.isLower Char.toNat
  simp only [ge_iff_le, Bool.and_eq_true, decide_eq_true_eq, UInt32.le_def, BitVec.le_def]
  exact Iff.rfl

/-- Code point of a character built from a valid code point. -/
theorem char_toNat_ofNat {n : Nat} (h : n.isValidChar) : (Char.ofNat n).toNat = n := by
  unfold Char.ofNat
  rw [dif_pos h]
  unfold Char.ofNatAux Char.toNat
  simp [UInt32.ofNat', UInt32.toNat]

/-- Lowercasing a non-uppercase character changes nothing. -/
theorem char_toLower_eq_self {c : Char} (h : c.isUpper = false) : c.toLower = c := by
  unfold Char.toLower
  rw [if_neg]
  intro hn
  have : c.isUpper = true := (char_isUpper_iff c).mpr hn
  rw [h] at this
  exact Bool.false_ne_true this

/-- Lowercasing an uppercase letter adds 32 to the code point. -/
theorem char_toLower_toNat {c : Char} (h : c.isUpper = true) :
    c.toLower.toNat = c.toNat + 32 := by
  have hb := (char_isUpper_iff c).mp h
  unfold Char.toLower
  rw [if_pos hb]
  exact char_toNat_ofNat (Or.inl (by omega))

/-- Uppercasing after lowercasing restores an uppercase letter. -/
theorem char_toUpper_toLower {c : Char} (h : c.isUpper = true) : c.toLower.toUpper = c := by
  have hb := (char_isUpper_iff c).mp h
  have hl : c.toLower.toNat = c.toNat + 32 := char_toLower_toNat h
  unfold Char.toUpper
  rw [if_pos (by rw [hl]; omega)]
  have h2 : c.toLower.toNat - 32 = c.toNat := by omega
  rw [h2, Char.ofNat_toNat]

/-- Uppercasing a non-lowercase character changes nothing. -/
theorem char_toUpper_eq_self {c : Char} (h : c.isLower = false) : c.toUpper = c := by
  unfold Char.toUpper
  rw [if_neg]
  intro hn
  have : c.isLower = true := (char_isLower_iff c).mpr hn
  rw [h] at this
  exact Bool.false_ne_true this

/-- Code point range of an ASCII letter. -/
theorem char_alpha_bounds {c : Char} (h : c.isAlpha = true) :
    65 ≤ c.toNat ∧ c.toNat ≤ 122 := by
  unfold Char.isAlpha at h
  rcases Bool.or_eq_true_iff.mp h with hu | hl
  · have := (char_isUpper_iff c).mp hu
    omega
  · have := (char_isLower_iff c).mp hl
    omega

/-- Code point range of a lowercased ASCII letter. -/
theorem char_toLower_alpha_bounds {c : Char} (h : c.isAlpha = true) :
    97 ≤ c.toLower.toNat ∧ c.toLower.toNat ≤ 122 := by
  cases hu : c.isUpper with
  | true =>
    have hb := (char_isUpper_iff c).mp hu
    rw [char_toLower_toNat hu]
    omega
  | false =>
    rw [char_toLower_eq_self hu]
    unfold Char.isAlpha at h
    rcases Bool.or_eq_true_iff.mp h with h2 | h2
    · rw [hu] at h2
      exact absurd h2 Bool.false_ne_true
    · exact (char_isLower_iff c).mp h2

/-- Distinct code points give distinct characters. -/
theorem char_ne_of_toNat_lt {c d : Char} (h : c.toNat < d.toNat) : c ≠ d := by
  intro he
  rw [he] at h
  exact Nat.lt_irrefl _ h

/-- Case analysis delivered by the goodCase test. -/
theorem goodCase_cases (surf : Str) (h : goodCase surf = true) :
    (∀ c ∈ surf, c.isUpper = false) ∨ (∀ c ∈ surf, c.isUpper = true) ∨
      (∃ c rest, surf = c :: rest ∧ c.isUpper = true ∧ ∀ d ∈ rest, d.isUpper = false) ∨
      (∃ init lst, surf = init ++ [lst] ∧ lst.isUpper = true ∧
        ∀ d ∈ init, d.isUpper = false) := by
  by_cases hnil : surf = []
  · subst hnil
    left
    intro c hc
    simp at hc
  unfold goodCase at h
  rcases Bool.or_eq_true_iff.mp h with h3 | h4
  · rcases Bool.or_eq_true_iff.mp h3 with h1 | h2
    · rcases Bool.or_eq_true_iff.mp h1 with ha | hb
      · left
        intro c hc
        have := List.all_eq_true.mp ha c hc
        simpa using this
      · right; left
        intro c hc
        exact List.all_eq_true.mp hb c hc
    · right; right; left
      cases surf with
      | nil => exact absurd rfl hnil
      | cons c rest =>
        simp only [Bool.and_eq_true, List.all_eq_true] at h2
        exact ⟨c, rest, rfl, h2.1, fun d hd => by simpa using h2.2 d hd⟩
  · right; right; right
    cases hsr : surf.reverse with
    | nil => exact absurd (by simpa using congrArg List.reverse hsr) hnil
    | cons c rest =>
      rw [hsr] at h4
      simp only [Bool.and_eq_true, List.all_eq_true] at h4
      refine ⟨rest.reverse, c, ?_, h4.1, fun d hd => by
        simpa using h4.2 d (List.mem_reverse.mp hd)⟩
      have := congrArg List.reverse hsr
      simpa using this

/-- Tag computation on a one-character slice. -/
theorem gcf_one (c : Char) : get_case_feature [c] = if c.isUpper then 'S' else 'N' := rfl

/-- Tag computation on a two-character slice. -/
theorem gcf_two (c d : Char) :
    get_case_feature [c, d] =
      if c.isUpper ∧ d.isUpper then 'A'
      else if c.isUpper then 'S'
      else if d.isUpper then 'E'
      else 'N' := rfl

/-- Tag computation on a slice of three or more characters. -/
theorem gcf_big (c d e : Char) (rest : Str) :
    get_case_feature (c :: d :: e :: rest) =
      if ((d :: e :: rest).getLast (List.cons_ne_nil d (e :: rest))).isUpper then
        if c.isUpper ∧ ((d :: e :: rest).dropLast).all Char.isUpper then 'A'
        else if c.isUpper then 'B'
        else 'E'
      else if c.isUpper then 'S'
      else 'N' := rfl

/-- A slice with no uppercase gets the tag N. -/
theorem tag_N (surf : Str) (h : ∀ c ∈ surf, c.isUpper = false) :
    get_case_feature surf = 'N' := by
  match surf with
  | [] => rfl
  | [c] =>
    rw [gcf_one, if_neg (by simp [h c (by simp)])]
  | [c, d] =>
    rw [gcf_two, if_neg (by simp [h c (by simp)]), if_neg (by simp [h c (by simp)]),
      if_neg (by simp [h d (by simp)])]
  | c :: d :: e :: rest =>
    have hend := h ((d :: e :: rest).getLast (List.cons_ne_nil d (e :: rest)))
      (by simp [List.getLast_mem])
    rw [gcf_big, if_neg (by rw [hend]; simp), if_neg (by simp [h c (by simp)])]

/-- A slice uppercase only at the start gets the tag S. -/
theorem tag_S (c : Char) (rest : Str) (hc : c.isUpper = true)
    (h : ∀ d ∈ rest, d.isUpper = false) : get_case_feature (c :: rest) = 'S' := by
  match rest with
  | [] => rw [gcf_one, if_pos hc]
  | [d] =>
    rw [gcf_two, if_neg (by simp [h d (by simp)]), if_pos hc]
  | d :: e :: rest2 =>
    have hend := h ((d :: e :: rest2).getLast (List.cons_ne_nil d (e :: rest2)))
      (by simp [List.getLast_mem])
    rw [gcf_big, if_neg (by rw [hend]; simp), if_pos hc]

/-- An all-uppercase slice of two or more characters gets the tag A. -/
theorem tag_A (a b : Char) (rest : Str) (h : ∀ c ∈ a :: b :: rest, c.isUpper = true) :
    get_case_feature (a :: b :: rest) = 'A' := by
  match rest with
  | [] =>
    rw [gcf_two, if_pos ⟨h a (by simp), h b (by simp)⟩]
  | e :: rest2 =>
    have hend := h ((b :: e :: rest2).getLast (List.cons_ne_nil b (e :: rest2)))
      (by simp [List.getLast_mem])
    have hmid : ((b :: e :: rest2).dropLast).all Char.isUpper = true := by
      rw [List.all_eq_true]
      intro d hd
      exact h d (List.mem_cons_of_mem a (List.dropLast_subset _ hd))
    rw [gcf_big, if_pos hend, if_pos ⟨h a (by simp), hmid⟩]

/-- A slice of two or more characters uppercase only at the end gets the tag E. -/
theorem tag_E (init : Str) (lst : Char) (hin : init ≠ []) (hl : lst.isUpper = true)
    (h : ∀ d ∈ init, d.isUpper = false) : get_case_feature (init ++ [lst]) = 'E' := by
  match init, hin with
  | [i0], _ =>
    have hi0 := h i0 (by simp)
    show get_case_feature [i0, lst] = 'E'
    rw [gcf_two, if_neg (by simp [hi0]), if_neg (by simp [hi0]), if_pos hl]
  | i0 :: i1 :: irest, _ =>
    have hi0 := h i0 (by simp)
    have hshape : (i0 :: i1 :: irest) ++ [lst] = i0 :: i1 :: (irest ++ [lst]) := by simp
    rw [hshape]
    match hir : irest ++ [lst] with
    | [] => exact absurd hir (by simp)
    | e :: rest2 =>
      have hend : ((i1 :: e :: rest2).getLast (List.cons_ne_nil i1 (e :: rest2))).isUpper
          = true := by
        have hq : (i1 :: e :: rest2).getLast? = some lst := by
          rw [← hir, getLast?_cons_ne i1 _ (by simp)]
          exact List.getLast?_concat _
        have hq2 := List.getLast?_eq_getLast (i1 :: e :: rest2)
          (List.cons_ne_nil i1 (e :: rest2))
        rw [hq] at hq2
        rw [← Option.some.inj hq2]
        exact hl
      rw [gcf_big, if_pos hend, if_neg (by simp [hi0]), if_neg (by simp [hi0])]

/-- upLast uppercases exactly the appended last character. -/
theorem upLast_concat (a : Str) (b : Char) : upLast (a ++ [b]) = a ++ [b.toUpper] := by
  unfold upLast
  rw [List.reverse_append]
  simp

/-- Case restoration for the E tag on a token carrying a trailing OpenNMT
separator: the separator is detached, the last core character uppercased, and
the separator reattached. -/
theorem apply_case_E_marked (X : Str) (hhead : X.head? ≠ some '￭') :
    apply_case (X ++ ['￭']) ['E'] = upLast X ++ ['￭'] := by
  unfold apply_case
  rw [if_neg (by decide), if_neg (by decide), if_neg (by decide)]
  simp [List.getLast?_concat, List.dropLast_concat, hhead]

/-- Case restoration for the N tag changes nothing. -/
theorem apply_case_N (norm : Str) : apply_case norm ['N'] = norm := by
  unfold apply_case
  rw [if_pos rfl]

/-- Case restoration for the A tag uppercases every character. -/
theorem apply_case_A (norm : Str) : apply_case norm ['A'] = norm.map Char.toUpper := by
  unfold apply_case
  rw [if_neg (by decide), if_pos rfl]

/-- Case restoration for the S tag uppercases the first character. -/
theorem apply_case_S (norm : Str) : apply_case norm ['S'] = upFirst norm := by
  unfold apply_case
  rw [if_neg (by decide), if_neg (by decide), if_pos rfl]

/-- Case restoration for the E tag on a separator-free token. -/
theorem apply_case_E_plain (X : Str) (hlast : X.getLast? ≠ some '￭')
    (hhead : X.head? ≠ some '￭') : apply_case X ['E'] = upLast X := by
  unfold apply_case
  rw [if_neg (by decide), if_neg (by decide), if_neg (by decide)]
  simp [hlast, hhead]

/-- The feature search splits an annotated token at the first feature separator. -/
theorem findFeat_split (feat : Str) :
    ∀ (norm acc : Str), (∀ c ∈ norm, c ≠ '￨') →
      findFeatAux (norm ++ '￨' :: feat) acc = some ((acc.reverse ++ norm), feat)
  | [], acc, _ => by
    rw [List.nil_append, findFeatAux, if_pos rfl]
    simp
  | c :: norm, acc, h => by
    rw [List.cons_append, findFeatAux, if_neg (h c (by simp))]
    rw [findFeat_split feat norm (c :: acc) (fun d hd => h d (by simp [hd]))]
    simp

/-- Decoding an annotated token restores case on the text before the tag. -/
theorem decode_token_split (norm feat : Str) (h : ∀ c ∈ norm, c ≠ '￨') :
    decode_token (norm ++ '￨' :: feat) = apply_case norm feat := by
  unfold decode_token
  rw [findFeat_split feat norm [] h]
  simp

/-- Lowercasing a string with no uppercase changes nothing. -/
theorem map_toLower_not_upper : ∀ s : Str, (∀ c ∈ s, c.isUpper = false) →
    s.map Char.toLower = s
  | [], _ => rfl
  | c :: rest, h => by
    simp only [List.map_cons]
    rw [char_toLower_eq_self (h c (by simp)),
      map_toLower_not_upper rest (fun d hd => h d (by simp [hd]))]

/-- Uppercasing after lowercasing restores an all-uppercase string. -/
theorem map_toUpper_toLower : ∀ s : Str, (∀ c ∈ s, c.isUpper = true) →
    (s.map Char.toLower).map Char.toUpper = s
  | [], _ => rfl
  | c :: rest, h => by
    simp only [List.map_cons]
    rw [char_toUpper_toLower (h c (by simp)),
      map_toUpper_toLower rest (fun d hd => h d (by simp [hd]))]

/-- A lowercased letter is not the feature separator. -/
theorem char_toLower_ne_feat {c : Char} (h : c.isAlpha = true) : c.toLower ≠ '￨' := by
  have hb := char_toLower_alpha_bounds h
  have hv : ('￨' : Char).toNat = 65512 := rfl
  exact char_ne_of_toNat_lt (by omega)

/-- A lowercased letter is not the OpenNMT separator. -/
theorem char_toLower_ne_mark {c : Char} (h : c.isAlpha = true) : c.toLower ≠ '￭' := by
  have hb := char_toLower_alpha_bounds h
  have hv : ('￭' : Char).toNat = 65517 := rfl
  exact char_ne_of_toNat_lt (by omega)

/-- A letter is not the OpenNMT separator. -/
theorem char_alpha_ne_mark {c : Char} (h : c.isAlpha = true) : c ≠ '￭' := by
  have hb := char_alpha_bounds h
  have hv : ('￭' : Char).toNat = 65517 := rfl
  exact char_ne_of_toNat_lt (by omega)

/-- A letter is not a space. -/
theorem char_alpha_ne_space {c : Char} (h : c.isAlpha = true) : c ≠ ' ' := by
  have hb := char_alpha_bounds h
  have hv : (' ' : Char).toNat = 32 := rfl
  exact Ne.symm (char_ne_of_toNat_lt (by omega))

/-- upFirst uppercases exactly the head character. -/
theorem upFirst_cons (c : Char) (rest : Str) : upFirst (c :: rest) = c.toUpper :: rest := rfl

/-- Decoding a non-final case-annotated token (lowercased slice, separator,
feature tag) restores the surface slice with the separator, for every good
pattern. -/
theorem decode_nonfinal (surf : Str) (hne : surf ≠ [])
    (halpha : ∀ c ∈ surf, c.isAlpha = true) (hgood : goodCase surf = true) :
    decode_token ((surf.map Char.toLower ++ ['￭']) ++ '￨' :: [get_case_feature surf])
      = surf ++ ['￭'] := by
  have hnf : ∀ c ∈ surf.map Char.toLower ++ ['￭'], c ≠ '￨' := by
    intro c hc
    rcases List.mem_append.1 hc with h1 | h2
    · obtain ⟨d, hd, rfl⟩ := List.mem_map.1 h1
      exact char_toLower_ne_feat (halpha d hd)
    · have hc2 : c = '￭' := by simpa using h2
      rw [hc2]
      decide
  rw [decode_token_split _ _ hnf]
  have hheadne : (surf.map Char.toLower).head? ≠ some '￭' := by
    cases surf with
    | nil => exact absurd rfl hne
    | cons c rest =>
      simp only [List.map_cons, List.head?_cons]
      intro hcon
      exact char_toLower_ne_mark (halpha c (by simp)) (Option.some.inj hcon)
  rcases goodCase_cases surf hgood with hall | hall |
    ⟨c, rest, rfl, hcu, hrl⟩ | ⟨init, lst, rfl, hlu, hil⟩
  · rw [tag_N surf hall, apply_case_N, map_toLower_not_upper surf hall]
  · cases surf with
    | nil => exact absurd rfl hne
    | cons c rest =>
      cases rest with
      | nil =>
        rw [tag_S c [] (hall c (by simp)) (by simp), apply_case_S]
        simp only [List.map_cons, List.map_nil, List.cons_append, List.nil_append]
        rw [upFirst_cons, char_toUpper_toLower (hall c (by simp))]
      | cons d rest2 =>
        rw [tag_A c d rest2 hall, apply_case_A, List.map_append,
          map_toUpper_toLower _ hall]
        simp
  · rw [tag_S c rest hcu hrl, apply_case_S]
    simp only [List.map_cons, List.cons_append]
    rw [upFirst_cons, char_toUpper_toLower hcu, map_toLower_not_upper rest hrl]
  · cases init with
    | nil =>
      simp only [List.nil_append] at *
      rw [show get_case_feature [lst] = 'S' from tag_S lst [] hlu (by simp), apply_case_S]
      simp only [List.map_cons, List.map_nil, List.cons_append, List.nil_append]
      rw [upFirst_cons, char_toUpper_toLower hlu]
    | cons i0 irest =>
      rw [tag_E (i0 :: irest) lst (List.cons_ne_nil i0 irest) hlu hil,
        apply_case_E_marked _ hheadne]
      have hX : (((i0 :: irest) ++ [lst]).map Char.toLower)
          = (i0 :: irest) ++ [lst.toLower] := by
        rw [List.map_append, map_toLower_not_upper (i0 :: irest) hil]
        rfl
      rw [hX, upLast_concat, char_toUpper_toLower hlu]

/-- Decoding the final case-annotated token restores the surface slice. -/
theorem decode_final (surf : Str) (hne : surf ≠ [])
    (halpha : ∀ c ∈ surf, c.isAlpha = true) (hgood : goodCase surf = true) :
    decode_token ((surf.map Char.toLower) ++ '￨' :: [get_case_feature surf]) = surf := by
  have hnf : ∀ c ∈ surf.map Char.toLower, c ≠ '￨' := by
    intro c hc
    obtain ⟨d, hd, rfl⟩ := List.mem_map.1 hc
    exact char_toLower_ne_feat (halpha d hd)
  rw [decode_token_split _ _ hnf]
  have hheadne : (surf.map Char.toLower).head? ≠ some '￭' := by
    cases surf with
    | nil => exact absurd rfl hne
    | cons c rest =>
      simp only [List.map_cons, List.head?_cons]
      intro hcon
      exact char_toLower_ne_mark (halpha c (by simp)) (Option.some.inj hcon)
  have hlastne : (surf.map Char.toLower).getLast? ≠ some '￭' := by
    intro hcon
    have hmem := List.mem_of_mem_getLast? (Option.mem_def.mpr hcon)
    obtain ⟨d, hd, hdd⟩ := List.mem_map.1 hmem
    exact char_toLower_ne_mark (halpha d hd) hdd
  rcases goodCase_cases surf hgood with hall | hall |
    ⟨c, rest, rfl, hcu, hrl⟩ | ⟨init, lst, rfl, hlu, hil⟩
  · rw [tag_N surf hall, apply_case_N, map_toLower_not_upper surf hall]
  · cases surf with
    | nil => exact absurd rfl hne
    | cons c rest =>
      cases rest with
      | nil =>
        rw [tag_S c [] (hall c (by simp)) (by simp), apply_case_S]
        simp only [List.map_cons, List.map_nil]
        rw [upFirst_cons, char_toUpper_toLower (hall c (by simp))]
      | cons d rest2 =>
        rw [tag_A c d rest2 hall, apply_case_A, map_toUpper_toLower _ hall]
  · rw [tag_S c rest hcu hrl, apply_case_S]
    simp only [List.map_cons]
    rw [upFirst_cons, char_toUpper_toLower hcu, map_toLower_not_upper rest hrl]
  · cases init with
    | nil =>
      simp only [List.nil_append] at *
      rw [show get_case_feature [lst] = 'S' from tag_S lst [] hlu (by simp), apply_case_S]
      simp only [List.map_cons, List.map_nil]
      rw [upFirst_cons, char_toUpper_toLower hlu]
    | cons i0 irest =>
      rw [tag_E (i0 :: irest) lst (List.cons_ne_nil i0 irest) hlu hil,
        apply_case_E_plain _ hlastne hheadne]
      have hX : (((i0 :: irest) ++ [lst]).map Char.toLower)
          = (i0 :: irest) ++ [lst.toLower] := by
        rw [List.map_append, map_toLower_not_upper (i0 :: irest) hil]
        rfl
      rw [hX, upLast_concat, char_toUpper_toLower hlu]

/-- Token-wise decoding of the case formatter output: each annotated token
decodes to its surface slice (with separator when non-final). -/
theorem formatCase_decode (word : Str) (halpha : ∀ c ∈ word, c.isAlpha = true) :
    ∀ (toks : List Str) (pos : Nat),
      (∀ t ∈ toks, t ≠ []) →
      toks.flatten = (word.drop pos).map Char.toLower →
      (∀ surf ∈ caseSlices word pos toks, goodCase surf = true) →
      (formatCaseAux ['￭'] word pos toks).map decode_token
        = markTokens (caseSlices word pos toks)
  | [], pos, _, _, _ => rfl
  | [t], pos, htne, hflat, hgood => by
    rw [formatCaseAux, caseSlices]
    simp only [List.map_cons, List.map_nil, markTokens]
    have ht : t = (word.drop pos).map Char.toLower := by simpa using hflat
    have hsne : word.drop pos ≠ [] := by
      intro hcon
      rw [hcon] at ht
      exact htne t (by simp) (by simpa using ht)
    have hsa : ∀ c ∈ word.drop pos, c.isAlpha = true :=
      fun c hc => halpha c (List.mem_of_mem_drop hc)
    have hsg : goodCase (word.drop pos) = true := hgood _ (by rw [caseSlices]; simp)
    rw [show t ++ '￨' :: [get_case_feature (word.drop pos)]
        = ((word.drop pos).map Char.toLower) ++ '￨' :: [get_case_feature (word.drop pos)] by
      rw [← ht]]
    rw [decode_final (word.drop pos) hsne hsa hsg]
  | item :: next :: rest, pos, htne, hflat, hgood => by
    rw [formatCaseAux, caseSlices]
    have hlen : item.length ≤ (word.drop pos).length := by
      have h1 : (item :: next :: rest).flatten.length
          = ((word.drop pos).map Char.toLower).length := congrArg List.length hflat
      rw [List.flatten_cons, List.length_append, List.length_map] at h1
      omega
    have hsurf : item = ((word.drop pos).take item.length).map Char.toLower := by
      have h1 : (item ++ (next :: rest).flatten).take item.length = item := List.take_left _ _
      rw [show (item ++ (next :: rest).flatten) = (item :: next :: rest).flatten by simp] at h1
      rw [hflat] at h1
      rw [← List.map_take] at h1
      exact h1.symm
    have hsne : (word.drop pos).take item.length ≠ [] := by
      intro hcon
      rw [hcon] at hsurf
      exact htne item (by simp) (by simpa using hsurf)
    have hsa : ∀ c ∈ (word.drop pos).take item.length, c.isAlpha = true :=
      fun c hc => halpha c (List.mem_of_mem_drop (List.mem_of_mem_take hc))
    have hsg : goodCase ((word.drop pos).take item.length) = true :=
      hgood _ (by rw [caseSlices]; simp)
    have htail : (next :: rest).flatten = (word.drop (pos + item.length)).map Char.toLower := by
      have h1 : (item ++ (next :: rest).flatten).drop item.length = (next :: rest).flatten :=
        List.drop_left _ _
      rw [show (item ++ (next :: rest).flatten) = (item :: next :: rest).flatten by simp] at h1
      rw [hflat, ← List.map_drop, List.drop_drop] at h1
      exact h1.symm
    have hCne : caseSlices word (pos + item.length) (next :: rest) ≠ [] := by
      cases rest with
      | nil => rw [caseSlices]; simp
      | cons u us => rw [caseSlices]; simp
    simp only [List.map_cons]
    obtain ⟨cs0, css, hcs⟩ := List.exists_cons_of_ne_nil hCne
    rw [hcs]
    rw [show markTokens (((word.drop pos).take item.length) :: cs0 :: css)
        = (((word.drop pos).take item.length) ++ ['￭']) :: markTokens (cs0 :: css) from rfl]
    rw [← hcs]
    have hdec : decode_token ((item ++ ['￭']) ++ '￨' :: [get_case_feature
        ((word.drop pos).take item.length)])
        = ((word.drop pos).take item.length) ++ ['￭'] := by
      have hd2 := decode_nonfinal ((word.drop pos).take item.length) hsne hsa hsg
      rw [← hsurf] at hd2
      exact hd2
    rw [show item ++ ['￭'] ++ ('￨' :: [get_case_feature ((word.drop pos).take item.length)])
        = (item ++ ['￭']) ++ '￨' :: [get_case_feature ((word.drop pos).take item.length)] by
      simp]
    rw [hdec]
    rw [formatCase_decode word halpha (next :: rest) (pos + item.length)
      (fun x hx => htne x (by simp [hx])) htail
      (fun surf hs => hgood surf (by rw [caseSlices]; simp [hs]))]

/-- Replacement changes nothing when the pattern head never occurs. -/
theorem strReplaceF_id (c0 : Char) (cs : Str) :
    ∀ (fuel : Nat) (s : Str), (∀ c ∈ s, c ≠ c0) → strReplaceF (c0 :: cs) [] fuel s = s
  | 0, s, _ => rfl
  | fuel + 1, [], _ => rfl
  | fuel + 1, d :: rest, h => by
    rw [strReplaceF, if_neg]
    · rw [strReplaceF_id c0 cs fuel rest (fun c hc => h c (by simp [hc]))]
    · rintro ⟨-, hp⟩
      simp only [List.isPrefixOf, Bool.and_eq_true, beq_iff_eq] at hp
      exact h d (by simp) hp.1.symm

/-- Replacement commutes past a block free of the pattern head. -/
theorem strReplaceF_skip (c0 : Char) (cs : Str) :
    ∀ (a rest : Str) (fuel : Nat), a.length ≤ fuel → (∀ c ∈ a, c ≠ c0) →
      strReplaceF (c0 :: cs) [] fuel (a ++ rest)
        = a ++ strReplaceF (c0 :: cs) [] (fuel - a.length) rest
  | [], rest, fuel, _, _ => by simp
  | d :: a, rest, fuel, hf, h => by
    cases fuel with
    | zero => simp at hf
    | succ f =>
      rw [List.cons_append, strReplaceF, if_neg]
      · rw [strReplaceF_skip c0 cs a rest f (by simpa using hf)
          (fun c hc => h c (by simp [hc]))]
        simp [Nat.succ_sub_succ]
      · rintro ⟨-, hp⟩
        simp only [List.isPrefixOf, Bool.and_eq_true, beq_iff_eq] at hp
        exact h d (by simp) hp.1.symm

/-- Marked token lists of nonempty slice lists are nonempty. -/
theorem markTokens_ne_nil (s : Str) (ss : List Str) : markTokens (s :: ss) ≠ [] := by
  cases ss with
  | nil => simp [markTokens]
  | cons t ts => simp [markTokens]

/-- Length bound on a space join. -/
theorem joinSpace_length : ∀ ss : List Str, (joinSpace ss).length ≤ ss.flatten.length + ss.length
  | [] => by simp [joinSpace]
  | [t] => by simp [joinSpace]
  | t :: u :: ts => by
    rw [joinSpace]
    have ih := joinSpace_length (u :: ts)
    simp only [List.length_append, List.length_cons, List.flatten_cons] at *
    omega

/-- Removing every separator-space pair from the space join of the marked
tokens concatenates the slices. -/
theorem asm_inner (ss : List Str) :
    ∀ (fuel : Nat), (joinSpace (markTokens ss)).length ≤ fuel →
      (∀ s ∈ ss, ∀ c ∈ s, c ≠ '￭' ∧ c ≠ ' ') →
      strReplaceF ['￭', ' '] [] fuel (joinSpace (markTokens ss)) = ss.flatten := by
  induction ss with
  | nil =>
    intro fuel _ _
    rw [show markTokens [] = [] from rfl, show joinSpace [] = [] from rfl]
    rw [strReplaceF_nil]
    rfl
  | cons s ss ih =>
    intro fuel hf hclean
    cases ss with
    | nil =>
      rw [show markTokens [s] = [s] from rfl, show joinSpace [s] = s from rfl]
      rw [strReplaceF_id '￭' [' '] fuel s (fun c hc => (hclean s (by simp) c hc).1)]
      simp
    | cons t ts =>
      rw [show markTokens (s :: t :: ts) = (s ++ ['￭']) :: markTokens (t :: ts) from rfl]
      obtain ⟨m, ms, hm⟩ := List.exists_cons_of_ne_nil (markTokens_ne_nil t ts)
      rw [hm]
      rw [show joinSpace ((s ++ ['￭']) :: m :: ms)
          = (s ++ ['￭']) ++ ' ' :: joinSpace (m :: ms) from rfl]
      rw [show (s ++ ['￭']) ++ ' ' :: joinSpace (m :: ms)
          = s ++ ('￭' :: ' ' :: joinSpace (m :: ms)) by simp]
      have hslen : s.length + (2 + (joinSpace (m :: ms)).length) ≤ fuel := by
        rw [show markTokens (s :: t :: ts) = (s ++ ['￭']) :: markTokens (t :: ts) from rfl,
          hm] at hf
        rw [show joinSpace ((s ++ ['￭']) :: m :: ms)
            = (s ++ ['￭']) ++ ' ' :: joinSpace (m :: ms) from rfl] at hf
        simp only [List.length_append, List.length_cons] at hf
        omega
      rw [strReplaceF_skip '￭' [' '] s _ fuel (by omega)
        (fun c hc => (hclean s (by simp) c hc).1)]
      have hf2 : 1 ≤ fuel - s.length := by omega
      obtain ⟨f2, hf2eq⟩ : ∃ f2, fuel - s.length = f2 + 1 :=
        ⟨fuel - s.length - 1, by omega⟩
      rw [hf2eq]
      rw [strReplaceF, if_pos]
      · rw [show (('￭' :: ' ' :: joinSpace (m :: ms)).drop (['￭', ' '] : Str).length)
            = joinSpace (m :: ms) from rfl]
        rw [← hm]
        rw [ih f2 (by rw [hm]; omega) (fun x hx c hc => hclean x (by simp [hx]) c hc)]
        simp
      · refine ⟨by simp, ?_⟩
        rw [show ('￭' :: ' ' :: joinSpace (m :: ms)) = ['￭', ' '] ++ joinSpace (m :: ms)
          from rfl]
        exact isPrefixOf_append_self _ _

/-- The detokenizer line assembly on marked tokens of separator-free,
space-free slices concatenates the slices. -/
theorem asm_lemma (ss : List Str) (hclean : ∀ s ∈ ss, ∀ c ∈ s, c ≠ '￭' ∧ c ≠ ' ') :
    strReplace [' ', '￭'] [] (strReplace ['￭', ' '] [] (joinSpace (markTokens ss)))
      = ss.flatten := by
  have hi : strReplace ['￭', ' '] [] (joinSpace (markTokens ss)) = ss.flatten := by
    unfold strReplace
    exact asm_inner ss _ (by omega) hclean
  rw [hi]
  unfold strReplace
  exact strReplaceF_id ' ' ['￭'] _ ss.flatten (fun c hc => by
    obtain ⟨s, hs, hcs⟩ := List.mem_flatten.1 hc
    exact (hclean s hs c hcs).2)

/-- The surface slices concatenate to the remainder of the word. -/
theorem caseSlices_flatten (word : Str) :
    ∀ (toks : List Str) (pos : Nat),
      toks.flatten = (word.drop pos).map Char.toLower →
      (caseSlices word pos toks).flatten = word.drop pos
  | [], pos, h => by
    rw [caseSlices]
    simp only [List.flatten_nil] at h ⊢
    cases hd : word.drop pos with
    | nil => rfl
    | cons c cs => rw [hd] at h; simp at h
  | [t], pos, h => by
    rw [caseSlices]
    simp
  | item :: next :: rest, pos, h => by
    rw [caseSlices]
    have hlen : item.length ≤ (word.drop pos).length := by
      have h1 : (item :: next :: rest).flatten.length
          = ((word.drop pos).map Char.toLower).length := congrArg List.length h
      rw [List.flatten_cons, List.length_append, List.length_map] at h1
      omega
    have htail : (next :: rest).flatten = (word.drop (pos + item.length)).map Char.toLower := by
      have h1 : (item ++ (next :: rest).flatten).drop item.length = (next :: rest).flatten :=
        List.drop_left _ _
      rw [show (item ++ (next :: rest).flatten) = (item :: next :: rest).flatten by simp] at h1
      rw [h, ← List.map_drop, List.drop_drop] at h1
      exact h1.symm
    simp only [List.flatten_cons]
    rw [caseSlices_flatten word (next :: rest) (pos + item.length) htail]
    rw [show word.drop (pos + item.length) = (word.drop pos).drop item.length by
      rw [List.drop_drop]]
    exact List.take_append_drop _ _

/-- Every character of every surface slice comes from the word. -/
theorem caseSlices_chars (word : Str) :
    ∀ (toks : List Str) (pos : Nat) (surf : Str), surf ∈ caseSlices word pos toks →
      ∀ c ∈ surf, c ∈ word
  | [], pos, surf, hs => by rw [caseSlices] at hs; simp at hs
  | [t], pos, surf, hs => by
    rw [caseSlices] at hs
    have : surf = word.drop pos := by simpa using hs
    rw [this]
    exact fun c hc => List.mem_of_mem_drop hc
  | item :: next :: rest, pos, surf, hs => by
    rw [caseSlices] at hs
    rcases List.mem_cons.1 hs with h1 | h2
    · rw [h1]
      exact fun c hc => List.mem_of_mem_drop (List.mem_of_mem_take hc)
    · exact caseSlices_chars word (next :: rest) (pos + item.length) surf h2

/-- The feature-separator replacement changes nothing without that character. -/
theorem map_id_of_ne_feat : ∀ s : Str, (∀ c ∈ s, c ≠ '￨') →
    s.map (fun c => if c = '￨' then '|' else c) = s
  | [], _ => rfl
  | c :: rest, h => by
    simp only [List.map_cons]
    rw [if_neg (h c (by simp)), map_id_of_ne_feat rest (fun d hd => h d (by simp [hd]))]

/-- Case normalization of an all-letter word is plain lowercasing. -/
theorem normWord_alpha (word : Str) (h : ∀ c ∈ word, c.isAlpha = true) :
    normWord true word = word.map Char.toLower := by
  unfold normWord
  rw [if_pos rfl]
  exact map_id_of_ne_feat _ (fun c hc => by
    obtain ⟨d, hd, rfl⟩ := List.mem_map.1 hc
    exact char_toLower_ne_feat (h d hd))

/-- A pattern whose head never occurs is not a substring. -/
theorem containsSub_false_of_head (c0 : Char) (cs s : Str) (h : ∀ c ∈ s, c ≠ c0) :
    containsSub s (c0 :: cs) = false := by
  cases hq : containsSub s (c0 :: cs) with
  | false => rfl
  | true =>
    exfalso
    obtain ⟨i, hi, hp⟩ := (containsSub_iff s (c0 :: cs)).mp hq
    cases hd : s.drop i with
    | nil => rw [hd] at hp; simp [List.isPrefixOf] at hp
    | cons d rest =>
      rw [hd] at hp
      simp only [List.isPrefixOf, Bool.and_eq_true, beq_iff_eq] at hp
      have hdm : d ∈ s := List.mem_of_mem_drop (by rw [hd]; simp)
      exact h d hdm hp.1.symm

/-- Claim C3 (amended): for every nonempty word of ASCII letters, every rule
table and both versions, segmenting with the case feature and the OpenNMT
separator and then decoding each emitted token (splitting off the feature tag,
restoring case per tag, and collapsing separator markers) reproduces the
original word exactly — provided each token's surface slice has a pattern the
tag alphabet can represent and decode: no uppercase, all uppercase, uppercase
only at the start, or uppercase only at the end. -/
theorem case_roundtrip (codes : List (Str × Str)) (version : List Nat) (word : Str)
    (raw : List Str) (cache2 : Cache)
    (hver : version = [0, 1] ∨ version = [0, 2]) (hne : word ≠ [])
    (halpha : ∀ c ∈ word, c.isAlpha = true)
    (henc : encode 0 (word.map Char.toLower) codes (bpe_codes_reverse codes) none
        ['￭'] version [] [] = some (raw, cache2))
    (hgood : ∀ surf ∈ caseSlices word 0 raw, goodCase surf = true) :
    segmentWordTokens 0 true codes (bpe_codes_reverse codes) none ['￭'] version [] [] word
        = some (formatCaseAux ['￭'] word 0 raw, cache2) ∧
      detokenize_line (formatCaseAux ['￭'] word 0 raw) = word := by
  have hnorm : normWord true word = word.map Char.toLower := normWord_alpha word halpha
  have hmapne : ∀ c ∈ word.map Char.toLower, c ≠ '<' := by
    intro c hc
    obtain ⟨d, hd, rfl⟩ := List.mem_map.1 hc
    have hb := char_toLower_alpha_bounds (halpha d hd)
    have hv : ('<' : Char).toNat = 60 := rfl
    exact Ne.symm (char_ne_of_toNat_lt (by omega))
  obtain ⟨toks, c2, henc2, hflat, htne⟩ :=
    encode_spec 0 (word.map Char.toLower) codes (bpe_codes_reverse codes) ['￭'] version
      [] [] hver (by simpa using hne)
      (containsSub_false_of_head '<' ['/', 'w', '>'] _ hmapne)
      (by intro k v hkv; simp [cacheFind] at hkv)
  rw [henc] at henc2
  injection henc2 with hp
  injection hp with hp1 hp2
  subst hp1
  subst hp2
  have hflat0 : raw.flatten = (word.drop 0).map Char.toLower := by
    rw [List.drop_zero]
    exact hflat
  constructor
  · unfold segmentWordTokens
    dsimp only
    rw [hnorm,
      show isolateGlossaries [] (word.map Char.toLower) = [word.map Char.toLower] from rfl]
    simp only [encodeFragments]
    rw [henc]
    simp
  · unfold detokenize_line
    rw [formatCase_decode word halpha raw 0 htne hflat0 hgood]
    rw [asm_lemma (caseSlices word 0 raw) (fun s hs c hc => by
      have hcw : c ∈ word := caseSlices_chars word raw 0 s hs c hc
      exact ⟨char_alpha_ne_mark (halpha c hcw), char_alpha_ne_space (halpha c hcw)⟩)]
    rw [caseSlices_flatten word raw 0 hflat0]
    exact List.drop_zero word

/-- Claim C3 counterexample: the all-letter word aBa, segmented as a single
token under rules (a,b), (ab,a), gets the tag N (interior uppercase is
invisible to the tag alphabet), so decoding returns aba, not aBa. -/
theorem case_roundtrip_cex :
    segmentWordTokens 0 true [(chars "a", chars "b"), (chars "ab", chars "a")]
        (bpe_codes_reverse [(chars "a", chars "b"), (chars "ab", chars "a")]) none ['￭']
        [0, 1] [] [] (chars "aBa")
      = some ([chars "aba￨N"], [(chars "aba", [chars "aba"])]) ∧
      detokenize_line [chars "aba￨N"] = chars "aba" ∧
      chars "aba" ≠ chars "aBa" :=
  ⟨rfl, rfl, by decide⟩

/-- Witness for case_roundtrip: the word Ab with an empty rule table. -/
theorem case_roundtrip_witness :
    segmentWordTokens 0 true [] (bpe_codes_reverse []) none ['￭'] [0, 1] [] [] (chars "Ab")
        = some (formatCaseAux ['￭'] (chars "Ab") 0 [['a'], ['b']],
                [(chars "ab", [['a'], ['b']])]) ∧
      detokenize_line (formatCaseAux ['￭'] (chars "Ab") 0 [['a'], ['b']]) = chars "Ab" :=
  case_roundtrip [] [0, 1] (chars "Ab") [['a'], ['b']] [(chars "ab", [['a'], ['b']])]
    (Or.inl rfl) (by decide) (by decide) rfl (by decide)

end SubwordNMT
